import Mathlib

/-!
Shallow embedding of the Service Description Table (SDT) codec of
`src/src/libtsduck/tsSDT.cpp`: the section-segmentation engine
(`ts::SDT::serialize`, `ts::SDT::addSection`) and the multi-section
reassembly/validation logic (`ts::SDT::deserialize`).

Bytes are modelled as `Nat` (with value `< 256` where the C++ type system
guarantees it), buffers as `List Nat`, and the `std::map<uint16_t, Service>`
as an association list ordered by key.  Descriptors are opaque tagged blobs
modelled by their raw serialized bytes (tag byte, length byte, payload).
-/

namespace ts

/-- Modelled from the spec: the maximum long-section payload size
(`MAX_PSI_LONG_SECTION_PAYLOAD_SIZE`, a fixed protocol constant; the engine
must never emit a section whose payload exceeds it). -/
def MAX_PSI_LONG_SECTION_PAYLOAD_SIZE : Nat := 1012

/-- Modelled from the spec: the table-type tag of the "this transport stream"
variant of the table (`TID_SDT_ACT`). -/
def TID_SDT_ACT : Nat := 0x42

/-- Modelled from the spec: the table-type tag of the "other transport stream"
variant of the table (`TID_SDT_OTH`). -/
def TID_SDT_OTH : Nat := 0x46

/-- Big-endian 16-bit read (`GetUInt16`) from the head of a byte list. -/
def GetUInt16 (data : List Nat) : Nat :=
  data.getD 0 0 * 256 + data.getD 1 0

/-- One service description (`ts::SDT::Service`): two EIT presence flags, a
3-bit running-status code, the CA control bit, and the owned descriptor list
(each descriptor kept as its raw serialized bytes). -/
structure Service where
  EITs_present : Bool
  EITpf_present : Bool
  running_status : Nat
  CA_controlled : Bool
  descs : List (List Nat)
  deriving DecidableEq

/-- Default-constructed `ts::SDT::Service`: all flags cleared, empty list. -/
def Service.init : Service :=
  { EITs_present := false
    EITpf_present := false
    running_status := 0
    CA_controlled := false
    descs := [] }

/-- The service map `std::map<uint16_t, Service>`, as an association list
kept in ascending key order. -/
abbrev ServiceMap := List (Nat × Service)

/-- Lookup in the service map. -/
def mapGet (m : ServiceMap) (k : Nat) : Option Service :=
  match m with
  | [] => none
  | (k', v) :: rest => if k = k' then some v else mapGet rest k

/-- Ordered insert-or-replace, the effect of `services[service_id] = serv`
on the ordered `std::map`. -/
def mapInsert (m : ServiceMap) (k : Nat) (v : Service) : ServiceMap :=
  match m with
  | [] => [(k, v)]
  | (k', v') :: rest =>
    if k < k' then (k, v) :: (k', v') :: rest
    else if k = k' then (k, v) :: rest
    else (k', v') :: mapInsert rest k v

/-- One physical section, with the header fields the SDT codec passes to and
reads from the `Section` collaborator. -/
structure Section where
  tableId : Nat
  tableIdExtension : Nat
  version : Nat
  isCurrent : Bool
  sectionNumber : Nat
  lastSectionNumber : Nat
  payload : List Nat
  deriving DecidableEq

/-- Modelled from the spec: a `BinaryTable` is the ordered sequence of
sections handed to `deserialize` / filled by `serialize`. -/
structure BinaryTable where
  sections : List Section
  deriving DecidableEq

/-- Modelled from the spec: `BinaryTable::isValid()` — the input sequence
must be non-empty (rule 1 of the reassembly validator). -/
def BinaryTable.isValid (bt : BinaryTable) : Bool :=
  decide (bt.sections ≠ [])

/-- Modelled from the spec: `BinaryTable::tableId()` — the table-type tag of
the first section fixes the table's tag. -/
def BinaryTable.tableId (bt : BinaryTable) : Nat :=
  ((bt.sections.head?).map Section.tableId).getD 0

/-- Modelled from the spec: `BinaryTable::sectionCount()`. -/
def BinaryTable.sectionCount (bt : BinaryTable) : Nat :=
  bt.sections.length

/-- The in-memory SDT (`ts::SDT`): table-type tag, version, current flag,
transport-stream id (table-id extension), original-network id (scope
identifier) and the service map.  `_is_valid` is the validity flag of
`AbstractTable`. -/
structure SDT where
  _table_id : Nat
  version : Nat
  is_current : Bool
  ts_id : Nat
  onetw_id : Nat
  services : ServiceMap
  _is_valid : Bool
  deriving DecidableEq

/-- Total serialized size of a descriptor list
(`DescriptorList::binarySize`): the sum of the raw sizes. -/
def binarySize (ds : List (List Nat)) : Nat :=
  (ds.map List.length).sum

/-- Modelled from the spec: the descriptor-list partial serializer
(`serializePartial` / `DescriptorList::serialize(addr, size, start_index)`):
writes descriptors in order while each fits in the remaining budget, and
returns the written bytes together with the descriptors not written.  A
descriptor is atomic: one that does not fit is not split. -/
def serializePartial (budget : Nat) (ds : List (List Nat)) :
    List Nat × List (List Nat) :=
  match ds with
  | [] => ([], [])
  | d :: rest =>
    if d.length ≤ budget then
      let r := serializePartial (budget - d.length) rest
      (d ++ r.1, r.2)
    else ([], d :: rest)

/-- Modelled from the spec: `DescriptorList::add(data, size)`
(`deserializeAppend`): parse a contiguous sequence of tag/length/payload
triples, clamping a descriptor whose declared length exceeds the remaining
bytes to what is available (defensive, not a hard failure). -/
def descAddGo : Nat → List Nat → List (List Nat)
  | 0, _ => []
  | fuel + 1, bytes =>
    if bytes.length < 2 then []
    else
      let dlength := min (2 + bytes.getD 1 0) bytes.length
      bytes.take dlength :: descAddGo fuel (bytes.drop dlength)

/-- Entry point of the descriptor parser: each step consumes at least two
bytes, so `bytes.length` steps always suffice. -/
def descAdd (bytes : List Nat) : List (List Nat) :=
  descAddGo bytes.length bytes

/-- The flags byte written at `data[2]` of a service entry:
`0xFC | (EITs_present ? 0x02 : 0x00) | (EITpf_present ? 0x01 : 0x00)`. -/
def flagsByte (serv : Service) : Nat :=
  0xFC ||| (if serv.EITs_present then 0x02 else 0x00) |||
    (if serv.EITpf_present then 0x01 else 0x00)

/-- The first byte of the descriptor-loop-length field after the reserved
bits are overwritten: `lengthSerialize` first writes `0xF000 | length`
big-endian, then `serialize` patches
`flags[0] = (flags[0] & 0x0F) | (running_status << 5) | (CA ? 0x10 : 0)`
(the assignment to a `uint8_t` truncates mod 256). -/
def lenHiByte (serv : Service) (len : Nat) : Nat :=
  (((0xF0 ||| len / 256) &&& 0x0F) ||| (serv.running_status <<< 5) |||
    (if serv.CA_controlled then 0x10 else 0x00)) % 256

/-- The bytes one loop iteration of `ts::SDT::serialize` appends to the
working payload for a service: 2-byte service id (big-endian), the flags
byte, the 2-byte descriptor-loop-length field (low 12 bits = number of
descriptor bytes written in this portion, high nibble = running status and
CA bit), then the serialized descriptor bytes of this portion. -/
def encChunk (service_id : Nat) (serv : Service) (bs : List Nat) : List Nat :=
  [service_id / 256 % 256, service_id % 256, flagsByte serv,
    lenHiByte serv bs.length, bs.length % 256] ++ bs

/-- The constant 3-byte part at the start of every section payload: the
original-network id (big-endian) and one reserved `0xFF` byte
(`PutUInt16 (data, onetw_id); data[2] = 0xFF`). -/
def SDT.hdr3 (t : SDT) : List Nat :=
  [t.onetw_id / 256 % 256, t.onetw_id % 256, 0xFF]

/-- State of one `serialize` call: sections already added to the output
table, the running section-number counter, and the working payload buffer
(the bytes from `payload` up to the write cursor `data`; the remaining
byte count of the C++ code is `MAX_PSI_LONG_SECTION_PAYLOAD_SIZE` minus its
length). -/
structure SerState where
  sections : List Section
  secnum : Nat
  buf : List Nat
  deriving DecidableEq

/-- The `remain` counter of `ts::SDT::serialize`. -/
def SerState.remain (st : SerState) : Nat :=
  MAX_PSI_LONG_SECTION_PAYLOAD_SIZE - st.buf.length

/-- One flush (`ts::SDT::addSection`): emit the working buffer as a section
whose section number and last-section-number are both the truncated running
counter, then restart the buffer after its 3-byte constant part. -/
def SDT.addSection (t : SDT) (st : SerState) : SerState :=
  { sections := st.sections ++
      [{ tableId := t._table_id
         tableIdExtension := t.ts_id
         version := t.version
         isCurrent := t.is_current
         sectionNumber := st.secnum % 256
         lastSectionNumber := st.secnum % 256
         payload := st.buf }]
    secnum := st.secnum + 1
    buf := st.buf.take 3 }

/-- The per-service `while (starting || start_index < count)` loop of
`ts::SDT::serialize`, with the descriptors not yet written standing for
`start_index` and an explicit fuel so that a loop that makes no progress
(impossible for well-formed descriptors) is modelled as `none`.
The budget passed to the partial serializer is `remain - 5`: the C++ code
first advances the cursor over the 3 fixed bytes and then reserves 2 bytes
for the length field, and `(a - 3) - 2 = a - 5` on `Nat`. -/
def SDT.serveLoop (t : SDT) (service_id : Nat) (serv : Service) :
    Nat → Bool → List (List Nat) → SerState → Option SerState
  | 0, _, _, _ => none
  | fuel + 1, starting, ds, st =>
    if starting = false ∧ ds = [] then some st
    else
      let st1 := if starting ∧ st.remain < 5 + binarySize ds
        then t.addSection st else st
      let r := serializePartial (st1.remain - 5) ds
      let st2 : SerState := { st1 with buf := st1.buf ++ encChunk service_id serv r.1 }
      let st3 := if r.2 ≠ [] then t.addSection st2 else st2
      SDT.serveLoop t service_id serv fuel false r.2 st3

/-- The `for` loop of `ts::SDT::serialize` over all services in ascending
key order: open a new section when fewer than the 5 fixed bytes remain,
then run the per-service loop. -/
def SDT.serveAll (t : SDT) : ServiceMap → SerState → Option SerState
  | [], st => some st
  | (service_id, serv) :: rest, st =>
    let st1 := if st.remain < 5 then t.addSection st else st
    match t.serveLoop service_id serv (serv.descs.length + 2) true serv.descs st1 with
    | none => none
    | some st2 => t.serveAll rest st2

/-- Serialization (`ts::SDT::serialize`): clear the output table, return it
empty if the SDT is invalid, otherwise build the sections; the buffer starts
with the original-network id and one `0xFF` reserved byte, and a final
partial section is flushed if it holds more than the 3 constant bytes or no
section has been produced yet.  `none` models a run of the C++ loop that
never terminates (it cannot for well-formed descriptors). -/
def SDT.serialize (t : SDT) (table : BinaryTable) : Option BinaryTable :=
  let cleared : BinaryTable := { sections := [] }
  if t._is_valid = false then some cleared
  else
    let st0 : SerState :=
      { sections := []
        secnum := 0
        buf := t.hdr3 }
    match t.serveAll t.services st0 with
    | none => none
    | some st =>
      let stF := if 3 < st.buf.length ∨ st.sections.length = 0
        then t.addSection st else st
      some { sections := stF.sections }

/-- The inner `while (remain >= 5)` service-description loop of
`ts::SDT::deserialize` on one section payload (after its 3 constant bytes):
read the 5-byte entry header, clamp the declared 12-bit descriptor-loop
length to the bytes actually remaining, append the parsed descriptors to the
(inserted-or-fetched) map entry, and continue; fewer than 5 trailing bytes
are discarded. -/
def parseServicesGo : Nat → List Nat → ServiceMap → ServiceMap
  | 0, _, m => m
  | fuel + 1, data, m =>
    if data.length < 5 then m
    else
      let service_id := GetUInt16 data
      let prev := (mapGet m service_id).getD Service.init
      let b2 := data.getD 2 0
      let b3 := data.getD 3 0
      let info0 := (b3 * 256 + data.getD 4 0) &&& 0x0FFF
      let info_length := min info0 (data.length - 5)
      let serv : Service :=
        { EITs_present := decide (b2 &&& 0x02 ≠ 0)
          EITpf_present := decide (b2 &&& 0x01 ≠ 0)
          running_status := b3 >>> 5
          CA_controlled := decide (b3 &&& 0x10 ≠ 0)
          descs := prev.descs ++ descAdd ((data.drop 5).take info_length) }
      parseServicesGo fuel (data.drop (5 + info_length))
        (mapInsert m service_id serv)

/-- Entry point of the service-description loop: each step consumes at
least five bytes, so `data.length` steps always suffice. -/
def parseServices (data : List Nat) (m : ServiceMap) : ServiceMap :=
  parseServicesGo data.length data m

/-- The section loop of `ts::SDT::deserialize`: abort (leaving the table
invalid) on a section whose table id differs from the table's; otherwise
take version, current flag and extension id from the section (these
assignments happen before the payload check and persist on its failure,
like the C++ member assignments), abort if fewer than the 3 constant
payload bytes are present, else read the original-network id, parse the
service descriptions and continue; when all sections are processed the
table becomes valid. -/
def SDT.processSections (t : SDT) : List Section → SDT
  | [] => { t with _is_valid := true }
  | sect :: rest =>
    if sect.tableId ≠ t._table_id then t
    else if sect.payload.length < 3 then
      { t with
        version := sect.version
        is_current := sect.isCurrent
        ts_id := sect.tableIdExtension }
    else
      SDT.processSections { t with
        version := sect.version
        is_current := sect.isCurrent
        ts_id := sect.tableIdExtension
        onetw_id := GetUInt16 sect.payload
        services := parseServices (sect.payload.drop 3) t.services } rest

/-- Deserialization (`ts::SDT::deserialize`): clear the table content
(validity flag, both ids and the service map — version and current flag
keep their previous values until overwritten by a section), reject an
invalid input table, fix the table id from the first section and check it is
one of the two SDT tags, then process each section in order. -/
def SDT.deserialize (t : SDT) (table : BinaryTable) : SDT :=
  let t0 : SDT := { t with
    _is_valid := false
    ts_id := 0
    onetw_id := 0
    services := [] }
  if table.isValid = false then t0
  else
    let t1 : SDT := { t0 with _table_id := table.tableId }
    if table.tableId ≠ TID_SDT_ACT ∧ table.tableId ≠ TID_SDT_OTH then t1
    else t1.processSections table.sections

/-- Folding the service-description parser over a list of section payload
bodies (payloads after their 3 constant bytes), as the section loop of
`deserialize` does. -/
def parseAll (bodies : List (List Nat)) (m : ServiceMap) : ServiceMap :=
  bodies.foldl (fun m' p => parseServices p m') m

/-- The descriptor list accumulated in the map for a given service id
(empty when the id is absent). -/
def descsAt (m : ServiceMap) (k : Nat) : List (List Nat) :=
  ((mapGet m k).map Service.descs).getD []

/-- The effect on the service map of parsing one encoded service chunk
`encChunk service_id serv bs`: insert-or-replace the entry, with the four
flag fields taken from the (re-decoded) chunk header and the parsed
descriptor bytes appended to the descriptors already accumulated. -/
def chunkApply (service_id : Nat) (serv : Service) (bs : List Nat)
    (m : ServiceMap) : ServiceMap :=
  mapInsert m service_id { serv with descs := descsAt m service_id ++ descAdd bs }

/-- A byte sequence parses as a prefix: consuming it from the front of the
service loop's input applies a fixed transformation to the map, whatever
follows. -/
def ParsesTo (p : List Nat) (f : ServiceMap → ServiceMap) : Prop :=
  ∀ tail m, parseServices (p ++ tail) m = parseServices tail (f m)

/-- Well-formedness of a raw descriptor as enforced by the C++ `Descriptor`
type: at least the 2-byte header, the length byte equals the payload size,
and every byte is a byte. -/
def DescWF (d : List Nat) : Prop :=
  2 ≤ d.length ∧ d.getD 1 0 + 2 = d.length ∧ ∀ b ∈ d, b < 256

/-- Representation invariants of one service-map entry: 16-bit service id,
3-bit running status, well-formed descriptors. -/
def svcWF (p : Nat × Service) : Prop :=
  p.1 < 65536 ∧ p.2.running_status < 8 ∧ ∀ d ∈ p.2.descs, DescWF d

/-- Representation invariants of an in-memory `ts::SDT` that the C++ type
system and the data model of the spec guarantee: the tag is one of the two
SDT tags, version is 5 bits, both ids are 16 bits, the service map is
strictly ordered by key, service ids are 16 bits, running status is 3 bits
and all descriptors are well-formed. -/
def SDT.wf (t : SDT) : Prop :=
  (t._table_id = TID_SDT_ACT ∨ t._table_id = TID_SDT_OTH) ∧
  t.version < 32 ∧ t.ts_id < 65536 ∧ t.onetw_id < 65536 ∧
  t.services.Pairwise (fun a b => a.1 < b.1) ∧
  ∀ p ∈ t.services, svcWF p

instance : DecidablePred DescWF := fun d => by
  unfold DescWF
  infer_instance

instance : DecidablePred svcWF := fun p => by
  unfold svcWF
  infer_instance

instance (t : SDT) : Decidable t.wf := by
  unfold SDT.wf
  infer_instance

/-- The combined encoded size of the service entries of a map: each entry
costs its 5 fixed header bytes plus its descriptor bytes. -/
def entriesSize (m : ServiceMap) : Nat :=
  (m.map (fun p => 5 + binarySize p.2.descs)).sum

/-- The number of descriptor bytes a single section contributes, on its own,
to a given service id when its payload body is parsed from an empty map. -/
def sectionPart (k : Nat) (s : Section) : Nat :=
  binarySize (descsAt (parseServices (s.payload.drop 3) []) k)

/-- A small valid SDT used as a base for concrete instances. -/
def exBase : SDT :=
  { _table_id := TID_SDT_ACT
    version := 5
    is_current := true
    ts_id := 7
    onetw_id := 9
    services := []
    _is_valid := true }

/-- An arbitrary pre-decode SDT state with cleared fields. -/
def exZero : SDT :=
  { _table_id := 0
    version := 0
    is_current := false
    ts_id := 0
    onetw_id := 0
    services := []
    _is_valid := false }

/-- A well-formed section carrying one service (id 7, empty descriptor
loop). -/
def exSec1 : Section :=
  { tableId := TID_SDT_ACT
    tableIdExtension := 5
    version := 3
    isCurrent := true
    sectionNumber := 0
    lastSectionNumber := 1
    payload := [0, 9, 0xFF, 0, 7, 0xFC, 0, 0] }

/-- A section with an empty payload (shorter than the 3 constant bytes). -/
def exSec2 : Section :=
  { exSec1 with payload := [] }

/-- A service with one descriptor and all four flag fields non-default. -/
def exSvc1 : Service :=
  { EITs_present := true
    EITpf_present := false
    running_status := 4
    CA_controlled := true
    descs := [[0x48, 3, 1, 0, 0]] }

/-- A one-service table that fits in a single section. -/
def exT1 : SDT :=
  { exBase with services := [(0x1234, exSvc1)] }

/-- A well-formed descriptor of serialized size 225. -/
def exD225 : List Nat :=
  0x48 :: 223 :: List.replicate 223 1

/-- A service whose descriptor list serializes to 900 bytes. -/
def exSvc900 : Service :=
  { Service.init with descs := List.replicate 4 exD225 }

/-- A service whose descriptor list serializes to 200 bytes. -/
def exSvc200 : Service :=
  { Service.init with descs := [0x48 :: 198 :: List.replicate 198 2] }

/-- Two services: the first fills most of the first section, the second's
200 descriptor bytes exceed the 102 bytes remaining there. -/
def exT3 : SDT :=
  { exBase with services := [(1, exSvc900), (2, exSvc200)] }

/-- A service with five descriptors of serialized size 257 each
(descriptor-list size 1285, larger than a whole fresh section). -/
def exSvcBig : Service :=
  { exSvc1 with descs := List.replicate 5 (0x48 :: 255 :: List.replicate 255 7) }

/-- A one-service table whose descriptor list cannot fit in one section. -/
def exTBig : SDT :=
  { exBase with services := [(100, exSvcBig)] }

/-- A table with `n` services, ids `0..n-1`, all with empty descriptor
lists. -/
def rangeTable (n : Nat) : SDT :=
  { exBase with services := (List.range n).map (fun i => (i, Service.init)) }

/-- The table state after the clearing preamble of `deserialize`: validity
flag down, both ids zero, service map empty (version and current flag keep
their previous values). -/
def SDT.clearedOf (s : SDT) : SDT :=
  { s with _is_valid := false, ts_id := 0, onetw_id := 0, services := [] }

/-- The cleared state after `deserialize` has also assigned the table id
from the input table. -/
def SDT.clearedWithTid (s : SDT) (tid : Nat) : SDT :=
  { s.clearedOf with _table_id := tid }

/-- The clamped descriptor-loop byte count one iteration of the decode
service loop consumes: the declared 12-bit length, clamped to the bytes
remaining after the 5-byte entry header. -/
def stepInfo (data : List Nat) : Nat :=
  min ((data.getD 3 0 * 256 + data.getD 4 0) &&& 0x0FFF) (data.length - 5)

/-- The service value one iteration of the decode service loop stores for
the entry at the head of `data`: flags re-read from the header bytes, parsed
descriptors appended to those already in the map. -/
def stepServ (data : List Nat) (m : ServiceMap) : Service :=
  { EITs_present := decide (data.getD 2 0 &&& 0x02 ≠ 0)
    EITpf_present := decide (data.getD 2 0 &&& 0x01 ≠ 0)
    running_status := data.getD 3 0 >>> 5
    CA_controlled := decide (data.getD 3 0 &&& 0x10 ≠ 0)
    descs := ((mapGet m (GetUInt16 data)).getD Service.init).descs ++
      descAdd ((data.drop 5).take (stepInfo data)) }

/-- A section whose table-type tag is neither of the two SDT tags. -/
def exSecBad : Section :=
  { exSec1 with tableId := 0x50 }

/-- A well-formed section (3-byte payload) carrying header values that
conflict with those of `exSec1`. -/
def exSecV9 : Section :=
  { exSec1 with
    version := 9
    isCurrent := false
    tableIdExtension := 77
    payload := [0, 9, 0xFF] }

/-- An SDT whose validity flag is down. -/
def exInvalid : SDT :=
  { exBase with _is_valid := false }

/-- The payload bodies of a section list: each payload minus its 3-byte
constant part, in order — exactly what the decode loop parses. -/
def bodiesOf (ss : List Section) : List (List Nat) :=
  ss.map (fun s => s.payload.drop 3)

/-- Invariant of the serialization state, relating it to the table being
encoded and to the service entries `done` fully processed so far: the buffer
starts with the 3 constant header bytes and respects the size bound, every
emitted section carries the table's constant fields and a bounded payload
headed by the same 3 bytes, section numbers count up from 0 (truncated to 8
bits, each equal to its own last-section-number), and parsing everything
emitted so far — sections plus the pending buffer — reproduces `done`. -/
structure EncOk (t : SDT) (st : SerState) (done : ServiceMap) : Prop where
  take3 : st.buf.take 3 = t.hdr3
  len3 : 3 ≤ st.buf.length
  lenMax : st.buf.length ≤ MAX_PSI_LONG_SECTION_PAYLOAD_SIZE
  secnum_eq : st.secnum = st.sections.length
  secProps : ∀ s ∈ st.sections, s.tableId = t._table_id ∧
    s.tableIdExtension = t.ts_id ∧ s.version = t.version ∧
    s.isCurrent = t.is_current ∧ s.payload.take 3 = t.hdr3 ∧
    3 ≤ s.payload.length ∧
    s.payload.length ≤ MAX_PSI_LONG_SECTION_PAYLOAD_SIZE
  secNums : ∀ i s, st.sections[i]? = some s →
    s.sectionNumber = i % 256 ∧ s.lastSectionNumber = i % 256
  decOk : ∃ f, ParsesTo (st.buf.drop 3) f ∧
    f (parseAll (bodiesOf st.sections) []) = done

theorem and4095_eq_mod (x : Nat) : x &&& 4095 = x % 4096 := by
  simpa using Nat.and_pow_two_sub_one_eq_mod x 12

theorem flagsByte_eq (serv : Service) :
    flagsByte serv = 252 + (if serv.EITs_present then 2 else 0) +
      (if serv.EITpf_present then 1 else 0) := by
  have key : ∀ e1 e2 : Bool,
      (0xFC ||| (if e1 then 0x02 else 0x00) ||| (if e2 then 0x01 else 0x00)) =
        252 + (if e1 then 2 else 0) + (if e2 then 1 else 0) := by decide
  exact key serv.EITs_present serv.EITpf_present

theorem flagsByte_bits : ∀ e1 e2 : Bool,
    (((252 + (if e1 then 2 else 0) + (if e2 then 1 else 0)) &&& 2 ≠ 0) ↔ e1 = true) ∧
    (((252 + (if e1 then 2 else 0) + (if e2 then 1 else 0)) &&& 1 ≠ 0) ↔ e2 = true) := by
  decide

theorem flagsByte_lt (serv : Service) : flagsByte serv < 256 := by
  rw [flagsByte_eq]
  cases serv.EITs_present <;> cases serv.EITpf_present <;> simp

theorem lenHiByte_eq (serv : Service) (len : Nat)
    (hrs : serv.running_status < 8) (hlen : len < 4096) :
    lenHiByte serv len = len / 256 + (if serv.CA_controlled then 16 else 0) +
      serv.running_status * 32 := by
  have key : ∀ hi < 16, ∀ rs < 8, ∀ ca : Bool,
      (((0xF0 ||| hi) &&& 0x0F) ||| rs <<< 5 ||| (if ca then 16 else 0)) % 256 =
        hi + (if ca then 16 else 0) + rs * 32 := by decide
  have h16 : len / 256 < 16 := by omega
  exact key (len / 256) h16 serv.running_status hrs serv.CA_controlled

theorem and16_extract : ∀ hi < 16, ∀ rs < 8, ∀ ca : Bool,
    (((hi + (if ca then 16 else 0) + rs * 32) &&& 16 ≠ 0) ↔ ca = true) := by
  decide

theorem lenHiByte_lt (serv : Service) (len : Nat) : lenHiByte serv len < 256 :=
  Nat.mod_lt _ (by omega)

theorem mapGet_eq_none (m : ServiceMap) (k : Nat) (h : ∀ p ∈ m, p.1 < k) :
    mapGet m k = none := by
  induction m with
  | nil => rfl
  | cons p rest ih =>
    have hp := h p (List.mem_cons_self p rest)
    rw [mapGet]
    rw [if_neg (by omega)]
    exact ih (fun q hq => h q (List.mem_cons_of_mem p hq))

theorem mapGet_append_self (m : ServiceMap) (k : Nat) (v : Service)
    (h : ∀ p ∈ m, p.1 < k) : mapGet (m ++ [(k, v)]) k = some v := by
  induction m with
  | nil => simp [mapGet]
  | cons p rest ih =>
    have hp := h p (List.mem_cons_self p rest)
    rw [List.cons_append, mapGet]
    rw [if_neg (by omega)]
    exact ih (fun q hq => h q (List.mem_cons_of_mem p hq))

theorem mapInsert_eq_append (m : ServiceMap) (k : Nat) (v : Service)
    (h : ∀ p ∈ m, p.1 < k) : mapInsert m k v = m ++ [(k, v)] := by
  induction m with
  | nil => rfl
  | cons p rest ih =>
    have hp := h p (List.mem_cons_self p rest)
    rw [mapInsert]
    rw [if_neg (by omega), if_neg (by omega), List.cons_append]
    rw [ih (fun q hq => h q (List.mem_cons_of_mem p hq))]

theorem mapInsert_append_self (m : ServiceMap) (k : Nat) (v v' : Service)
    (h : ∀ p ∈ m, p.1 < k) :
    mapInsert (m ++ [(k, v)]) k v' = m ++ [(k, v')] := by
  induction m with
  | nil => simp [mapInsert]
  | cons p rest ih =>
    have hp := h p (List.mem_cons_self p rest)
    rw [List.cons_append, mapInsert]
    rw [if_neg (by omega), if_neg (by omega)]
    rw [ih (fun q hq => h q (List.mem_cons_of_mem p hq)), List.cons_append]

theorem mapGet_insert_self (m : ServiceMap) (k : Nat) (v : Service) :
    mapGet (mapInsert m k v) k = some v := by
  induction m with
  | nil => simp [mapInsert, mapGet]
  | cons p rest ih =>
    rw [mapInsert]
    by_cases h1 : k < p.1
    · rw [if_pos h1, mapGet, if_pos rfl]
    · rw [if_neg h1]
      by_cases h2 : k = p.1
      · rw [if_pos h2, mapGet, if_pos rfl]
      · rw [if_neg h2, mapGet, if_neg h2]
        exact ih

theorem mapGet_insert_ne (m : ServiceMap) (k k' : Nat) (v : Service)
    (h : k' ≠ k) : mapGet (mapInsert m k v) k' = mapGet m k' := by
  induction m with
  | nil => simp [mapInsert, mapGet, h]
  | cons p rest ih =>
    rw [mapInsert]
    by_cases h1 : k < p.1
    · rw [if_pos h1, mapGet, if_neg h, mapGet]
    · rw [if_neg h1]
      by_cases h2 : k = p.1
      · rw [if_pos h2, mapGet, if_neg h, mapGet]
        rw [if_neg (fun hh => h (hh.trans h2.symm))]
      · rw [if_neg h2, mapGet, mapGet]
        by_cases h3 : k' = p.1
        · rw [if_pos h3, if_pos h3]
        · rw [if_neg h3, if_neg h3]
          exact ih

theorem mapGet_of_pairwise_mem (m : ServiceMap) (k : Nat) (v : Service)
    (hp : m.Pairwise (fun a b => a.1 < b.1)) (hm : (k, v) ∈ m) :
    mapGet m k = some v := by
  induction m with
  | nil => cases hm
  | cons p rest ih =>
    rw [mapGet]
    rcases List.mem_cons.mp hm with h | h
    · rw [← h]
      simp
    · have hlt := (List.pairwise_cons.mp hp).1 _ h
      rw [if_neg (by omega)]
      exact ih (List.pairwise_cons.mp hp).2 h

theorem binarySize_nil : binarySize [] = 0 := rfl

theorem binarySize_cons (d : List Nat) (ds : List (List Nat)) :
    binarySize (d :: ds) = d.length + binarySize ds := by
  simp [binarySize]

theorem binarySize_append (a b : List (List Nat)) :
    binarySize (a ++ b) = binarySize a + binarySize b := by
  simp [binarySize]

theorem binarySize_flatten_length (ds : List (List Nat)) :
    ds.flatten.length = binarySize ds := by
  simp [binarySize]

theorem serializePartial_all (b : Nat) (ds : List (List Nat))
    (h : binarySize ds ≤ b) : serializePartial b ds = (ds.flatten, []) := by
  induction ds generalizing b with
  | nil => rfl
  | cons d rest ih =>
    rw [binarySize_cons] at h
    rw [serializePartial, if_pos (by omega), ih (b - d.length) (by omega)]
    simp

theorem serializePartial_spec (b : Nat) (ds : List (List Nat)) :
    ∃ pre, ds = pre ++ (serializePartial b ds).2 ∧
      (serializePartial b ds).1 = pre.flatten ∧
      (serializePartial b ds).1.length ≤ b ∧
      (serializePartial b ds).2.length ≤ ds.length := by
  induction ds generalizing b with
  | nil => exact ⟨[], by simp [serializePartial]⟩
  | cons d rest ih =>
    by_cases hf : d.length ≤ b
    · obtain ⟨pre, h1, h2, h3, h4⟩ := ih (b - d.length)
      rw [serializePartial, if_pos hf]
      refine ⟨d :: pre, ?_, ?_, ?_, ?_⟩
      · simpa using congrArg (List.cons d) h1
      · simpa using h2
      · simp only [List.length_append]
        omega
      · simpa using Nat.le_succ_of_le h4
    · rw [serializePartial, if_neg hf]
      exact ⟨[], by simp⟩

theorem serializePartial_progress (b : Nat) (d : List Nat)
    (ds : List (List Nat)) (hf : d.length ≤ b) :
    (serializePartial b (d :: ds)).2.length ≤ ds.length := by
  rw [serializePartial, if_pos hf]
  obtain ⟨_, _, _, _, h4⟩ := serializePartial_spec (b - d.length) ds
  simpa using h4

theorem descAddGo_short (fuel : Nat) (bytes : List Nat) (h : bytes.length < 2) :
    descAddGo fuel bytes = [] := by
  cases fuel with
  | zero => rfl
  | succ f => rw [descAddGo, if_pos h]

theorem descAddGo_succ (f : Nat) (bytes : List Nat) (h : ¬ bytes.length < 2) :
    descAddGo (f + 1) bytes =
      bytes.take (min (2 + bytes.getD 1 0) bytes.length) ::
        descAddGo f (bytes.drop (min (2 + bytes.getD 1 0) bytes.length)) := by
  rw [descAddGo, if_neg h]

theorem descAddGo_fuel : ∀ (n fuel : Nat) (bytes : List Nat),
    bytes.length ≤ n → bytes.length ≤ fuel →
    descAddGo fuel bytes = descAdd bytes := by
  intro n
  induction n with
  | zero =>
    intro fuel bytes hn hf
    rw [descAddGo_short fuel bytes (by omega), descAdd,
      descAddGo_short bytes.length bytes (by omega)]
  | succ n ih =>
    intro fuel bytes hn hf
    by_cases h2 : bytes.length < 2
    · rw [descAddGo_short fuel bytes h2, descAdd,
        descAddGo_short bytes.length bytes h2]
    · obtain ⟨f, rfl⟩ : ∃ f, fuel = f + 1 := ⟨fuel - 1, by omega⟩
      obtain ⟨k, hk⟩ : ∃ k, bytes.length = k + 1 := ⟨bytes.length - 1, by omega⟩
      have hdrop : (bytes.drop (min (2 + bytes.getD 1 0) bytes.length)).length
          ≤ n := by
        rw [List.length_drop]
        omega
      rw [descAddGo_succ f bytes h2, descAdd]
      conv_rhs => rw [hk]
      rw [descAddGo_succ k bytes h2]
      congr 1
      rw [ih f _ hdrop (by rw [List.length_drop]; omega),
        ih k _ hdrop (by rw [List.length_drop]; omega)]

theorem descAdd_short (bytes : List Nat) (h : bytes.length < 2) :
    descAdd bytes = [] :=
  descAddGo_short _ _ h

theorem descAdd_step (bytes : List Nat) (h : ¬ bytes.length < 2) :
    descAdd bytes = bytes.take (min (2 + bytes.getD 1 0) bytes.length) ::
      descAdd (bytes.drop (min (2 + bytes.getD 1 0) bytes.length)) := by
  obtain ⟨k, hk⟩ : ∃ k, bytes.length = k + 1 := ⟨bytes.length - 1, by omega⟩
  conv_lhs => rw [descAdd, hk]
  rw [descAddGo_succ k bytes h]
  congr 1
  exact descAddGo_fuel (bytes.drop _).length k _ le_rfl
    (by rw [List.length_drop]; omega)

theorem parseServicesGo_short (fuel : Nat) (data : List Nat) (m : ServiceMap)
    (h : data.length < 5) : parseServicesGo fuel data m = m := by
  cases fuel with
  | zero => rfl
  | succ f => rw [parseServicesGo, if_pos h]

theorem parseServicesGo_succ (f : Nat) (data : List Nat) (m : ServiceMap)
    (h : ¬ data.length < 5) :
    parseServicesGo (f + 1) data m =
      parseServicesGo f (data.drop (5 + stepInfo data))
        (mapInsert m (GetUInt16 data) (stepServ data m)) := by
  rw [parseServicesGo, if_neg h]
  rfl

theorem parseServicesGo_fuel : ∀ (n fuel : Nat) (data : List Nat)
    (m : ServiceMap), data.length ≤ n → data.length ≤ fuel →
    parseServicesGo fuel data m = parseServices data m := by
  intro n
  induction n with
  | zero =>
    intro fuel data m hn hf
    rw [parseServicesGo_short fuel data m (by omega), parseServices,
      parseServicesGo_short data.length data m (by omega)]
  | succ n ih =>
    intro fuel data m hn hf
    by_cases h5 : data.length < 5
    · rw [parseServicesGo_short fuel data m h5, parseServices,
        parseServicesGo_short data.length data m h5]
    · obtain ⟨f, rfl⟩ : ∃ f, fuel = f + 1 := ⟨fuel - 1, by omega⟩
      obtain ⟨k, hk⟩ : ∃ k, data.length = k + 1 := ⟨data.length - 1, by omega⟩
      have hdrop : (data.drop (5 + stepInfo data)).length ≤ n := by
        rw [List.length_drop]
        omega
      rw [parseServicesGo_succ f data m h5, parseServices]
      conv_rhs => rw [hk]
      rw [parseServicesGo_succ k data m h5]
      rw [ih f _ _ hdrop (by rw [List.length_drop]; omega),
        ih k _ _ hdrop (by rw [List.length_drop]; omega)]

theorem parseServices_step (data : List Nat) (m : ServiceMap)
    (h : ¬ data.length < 5) :
    parseServices data m = parseServices (data.drop (5 + stepInfo data))
      (mapInsert m (GetUInt16 data) (stepServ data m)) := by
  obtain ⟨k, hk⟩ : ∃ k, data.length = k + 1 := ⟨data.length - 1, by omega⟩
  conv_lhs => rw [parseServices, hk]
  rw [parseServicesGo_succ k data m h]
  exact parseServicesGo_fuel (data.drop _).length k _ _ le_rfl
    (by rw [List.length_drop]; omega)

theorem descAdd_nil : descAdd [] = [] := rfl

theorem descAdd_flatten (ds : List (List Nat)) (h : ∀ d ∈ ds, DescWF d) :
    descAdd ds.flatten = ds := by
  induction ds with
  | nil => simpa using descAdd_nil
  | cons d rest ih =>
    obtain ⟨h2, hlen, _⟩ := h d (List.mem_cons_self d rest)
    rw [List.flatten_cons,
      descAdd_step _ (by simp only [List.length_append]; omega)]
    have hget : (d ++ rest.flatten).getD 1 0 = d.getD 1 0 :=
      List.getD_append _ _ _ _ (by omega)
    have hmin : min (2 + (d ++ rest.flatten).getD 1 0) (d ++ rest.flatten).length
        = d.length := by
      rw [hget, List.length_append]
      omega
    simp only [hmin]
    rw [List.take_left, List.drop_left]
    rw [ih (fun q hq => h q (List.mem_cons_of_mem d hq))]

theorem binarySize_descAdd_le (bs : List Nat) :
    binarySize (descAdd bs) ≤ bs.length := by
  by_cases h : bs.length < 2
  · rw [descAdd_short bs h]
    simp [binarySize]
  · rw [descAdd_step bs h]
    have hge : 2 ≤ min (2 + bs.getD 1 0) bs.length := by omega
    have hle : min (2 + bs.getD 1 0) bs.length ≤ bs.length := by omega
    have ih := binarySize_descAdd_le (bs.drop (min (2 + bs.getD 1 0) bs.length))
    rw [binarySize_cons]
    rw [List.length_drop] at ih
    have htake : (bs.take (min (2 + bs.getD 1 0) bs.length)).length
        = min (2 + bs.getD 1 0) bs.length := by
      rw [List.length_take]
      omega
    omega
termination_by bs.length
decreasing_by
  simp only [List.length_drop]
  omega


theorem decide_eq_bool {p : Prop} [Decidable p] {b : Bool} (h : p ↔ b = true) :
    decide p = b := by
  cases b
  · simp only [Bool.false_eq_true, iff_false] at h
    exact decide_eq_false h
  · exact decide_eq_true (h.mpr rfl)

theorem descsAt_eq (m : ServiceMap) (k : Nat) :
    ((mapGet m k).getD Service.init).descs = descsAt m k := by
  unfold descsAt
  cases mapGet m k <;> rfl

theorem parseServices_short (data : List Nat) (m : ServiceMap)
    (h : data.length < 5) : parseServices data m = m :=
  parseServicesGo_short _ _ _ h

theorem parseServices_nil (m : ServiceMap) : parseServices [] m = m :=
  parseServices_short _ _ (by simp)

theorem parsesTo_run (p : List Nat) (f : ServiceMap → ServiceMap)
    (h : ParsesTo p f) (m : ServiceMap) : parseServices p m = f m := by
  have h2 := h [] m
  rw [List.append_nil] at h2
  rw [h2, parseServices_nil]

theorem parsesTo_nil : ParsesTo [] id := by
  intro tail m
  rw [List.nil_append]
  rfl

theorem parsesTo_append (p q : List Nat) (f g : ServiceMap → ServiceMap)
    (hp : ParsesTo p f) (hq : ParsesTo q g) : ParsesTo (p ++ q) (g ∘ f) := by
  intro tail m
  rw [List.append_assoc, hp, hq]
  rfl

theorem encChunk_length (service_id : Nat) (serv : Service) (bs : List Nat) :
    (encChunk service_id serv bs).length = 5 + bs.length := by
  simp [encChunk]
  omega

theorem parsesTo_chunk (service_id : Nat) (serv : Service) (bs : List Nat)
    (hid : service_id < 65536) (hrs : serv.running_status < 8)
    (hbs : bs.length < 4096) :
    ParsesTo (encChunk service_id serv bs) (chunkApply service_id serv bs) := by
  intro tail m
  have hsplit : encChunk service_id serv bs ++ tail =
      [service_id / 256 % 256, service_id % 256, flagsByte serv,
        lenHiByte serv bs.length, bs.length % 256] ++ (bs ++ tail) := by
    simp [encChunk]
  have hlen : ([service_id / 256 % 256, service_id % 256, flagsByte serv,
      lenHiByte serv bs.length, bs.length % 256] ++ (bs ++ tail)).length
      = 5 + (bs.length + tail.length) := by
    simp
    omega
  rw [hsplit, parseServices_step _ m (by rw [hlen]; omega)]
  have hGet : GetUInt16 ([service_id / 256 % 256, service_id % 256, flagsByte serv,
      lenHiByte serv bs.length, bs.length % 256] ++ (bs ++ tail)) = service_id := by
    show service_id / 256 % 256 * 256 + service_id % 256 = service_id
    omega
  have h2 : ([service_id / 256 % 256, service_id % 256, flagsByte serv,
      lenHiByte serv bs.length, bs.length % 256] ++ (bs ++ tail)).getD 2 0
      = flagsByte serv := rfl
  have h3 : ([service_id / 256 % 256, service_id % 256, flagsByte serv,
      lenHiByte serv bs.length, bs.length % 256] ++ (bs ++ tail)).getD 3 0
      = lenHiByte serv bs.length := rfl
  have h4 : ([service_id / 256 % 256, service_id % 256, flagsByte serv,
      lenHiByte serv bs.length, bs.length % 256] ++ (bs ++ tail)).getD 4 0
      = bs.length % 256 := rfl
  have hcc : (if serv.CA_controlled then 16 else 0) = 16 ∨
      (if serv.CA_controlled then 16 else 0) = 0 := by
    cases serv.CA_controlled <;> simp
  have hInfo : (lenHiByte serv bs.length * 256 + bs.length % 256) &&& 4095
      = bs.length := by
    rw [and4095_eq_mod, lenHiByte_eq serv bs.length hrs hbs]
    rcases hcc with h | h <;> rw [h] <;> omega
  have hMin : min bs.length (([service_id / 256 % 256, service_id % 256,
      flagsByte serv, lenHiByte serv bs.length, bs.length % 256] ++
      (bs ++ tail)).length - 5) = bs.length := by
    rw [hlen]
    omega
  have hD5 : ([service_id / 256 % 256, service_id % 256, flagsByte serv,
      lenHiByte serv bs.length, bs.length % 256] ++ (bs ++ tail)).drop 5
      = bs ++ tail := rfl
  have hTake : (bs ++ tail).take bs.length = bs := List.take_left bs tail
  have hDropAll : ([service_id / 256 % 256, service_id % 256, flagsByte serv,
      lenHiByte serv bs.length, bs.length % 256] ++ (bs ++ tail)).drop
      (5 + bs.length) = tail := by
    rw [show ([service_id / 256 % 256, service_id % 256, flagsByte serv,
      lenHiByte serv bs.length, bs.length % 256] ++ (bs ++ tail))
      = ([service_id / 256 % 256, service_id % 256, flagsByte serv,
      lenHiByte serv bs.length, bs.length % 256] ++ bs) ++ tail by
        rw [List.append_assoc]]
    rw [show 5 + bs.length = (([service_id / 256 % 256, service_id % 256,
      flagsByte serv, lenHiByte serv bs.length, bs.length % 256] ++ bs)).length by
        simp; omega]
    exact List.drop_left _ _
  have hE1 : decide (flagsByte serv &&& 2 ≠ 0) = serv.EITs_present :=
    decide_eq_bool (by rw [flagsByte_eq]
                       exact (flagsByte_bits serv.EITs_present serv.EITpf_present).1)
  have hE2 : decide (flagsByte serv &&& 1 ≠ 0) = serv.EITpf_present :=
    decide_eq_bool (by rw [flagsByte_eq]
                       exact (flagsByte_bits serv.EITs_present serv.EITpf_present).2)
  have hRS : lenHiByte serv bs.length >>> 5 = serv.running_status := by
    rw [lenHiByte_eq serv bs.length hrs hbs, Nat.shiftRight_eq_div_pow]
    have hlt : bs.length / 256 < 16 := by omega
    have h32 : (2 : Nat) ^ 5 = 32 := by norm_num
    rw [h32]
    rcases hcc with h | h <;> rw [h] <;> omega
  have hCA : decide (lenHiByte serv bs.length &&& 16 ≠ 0) = serv.CA_controlled :=
    decide_eq_bool (by rw [lenHiByte_eq serv bs.length hrs hbs]
                       exact and16_extract (bs.length / 256) (by omega)
                         serv.running_status hrs serv.CA_controlled)
  have hstepinfo : stepInfo ([service_id / 256 % 256, service_id % 256,
      flagsByte serv, lenHiByte serv bs.length, bs.length % 256] ++ (bs ++ tail))
      = bs.length := by
    unfold stepInfo
    rw [h3, h4, hInfo, hlen]
    omega
  have hstepserv : stepServ ([service_id / 256 % 256, service_id % 256,
      flagsByte serv, lenHiByte serv bs.length, bs.length % 256] ++ (bs ++ tail)) m
      = { serv with descs := descsAt m service_id ++ descAdd bs } := by
    unfold stepServ
    rw [h2, h3, hGet, hstepinfo, hD5, hTake, hE1, hE2, hRS, hCA, descsAt_eq]
  rw [hGet, hstepinfo, hstepserv, hDropAll]
  rfl


theorem parseAll_nil (m : ServiceMap) : parseAll [] m = m := rfl

theorem parseAll_cons (b : List Nat) (bs : List (List Nat)) (m : ServiceMap) :
    parseAll (b :: bs) m = parseAll bs (parseServices b m) := rfl

theorem parseAll_append (a b : List (List Nat)) (m : ServiceMap) :
    parseAll (a ++ b) m = parseAll b (parseAll a m) :=
  List.foldl_append _ _ _ _

theorem parseAll_singleton (b : List Nat) (m : ServiceMap) :
    parseAll [b] m = parseServices b m := rfl

theorem bodiesOf_append (a b : List Section) :
    bodiesOf (a ++ b) = bodiesOf a ++ bodiesOf b := by
  simp [bodiesOf]

theorem addSection_encOk (t : SDT) (st : SerState) (done : ServiceMap)
    (h : EncOk t st done) : EncOk t (t.addSection st) done := by
  obtain ⟨h1, h2, h3, h4, h5, h6, f, hf, hfm⟩ := h
  have hbuf : (t.addSection st).buf = st.buf.take 3 := rfl
  have hsecs : (t.addSection st).sections = st.sections ++
      [{ tableId := t._table_id, tableIdExtension := t.ts_id, version := t.version,
         isCurrent := t.is_current, sectionNumber := st.secnum % 256,
         lastSectionNumber := st.secnum % 256, payload := st.buf }] := rfl
  have hnum : (t.addSection st).secnum = st.secnum + 1 := rfl
  have hmax : MAX_PSI_LONG_SECTION_PAYLOAD_SIZE = 1012 := rfl
  refine ⟨?_, ?_, ?_, ?_, ?_, ?_, ?_⟩
  · rw [hbuf, List.take_take]
    simpa using h1
  · rw [hbuf, List.length_take]
    omega
  · rw [hbuf, List.length_take]
    omega
  · rw [hnum, hsecs, List.length_append, h4]
    simp
  · rw [hsecs]
    intro s hs
    rcases List.mem_append.mp hs with hs | hs
    · exact h5 s hs
    · rcases List.mem_singleton.mp hs with rfl
      exact ⟨rfl, rfl, rfl, rfl, h1, h2, h3⟩
  · rw [hsecs]
    intro i s hs
    rw [List.getElem?_append] at hs
    by_cases hi : i < st.sections.length
    · rw [if_pos hi] at hs
      exact h6 i s hs
    · rw [if_neg hi] at hs
      by_cases hi2 : i = st.sections.length
      · subst hi2
        simp only [Nat.sub_self] at hs
        rw [List.getElem?_cons_zero] at hs
        cases hs
        rw [← h4]
        exact ⟨rfl, rfl⟩
      · rw [List.getElem?_eq_none (by simp; omega)] at hs
        cases hs
  · refine ⟨id, ?_, ?_⟩
    · rw [hbuf]
      have hdrop : (st.buf.take 3).drop 3 = [] := by
        apply List.drop_eq_nil_of_le
        rw [List.length_take]
        omega
      rw [hdrop]
      exact parsesTo_nil
    · rw [hsecs, bodiesOf_append, parseAll_append]
      show parseAll (bodiesOf [_]) (parseAll (bodiesOf st.sections) []) = done
      show parseServices (st.buf.drop 3) (parseAll (bodiesOf st.sections) []) = done
      rw [parsesTo_run _ _ hf]
      exact hfm


theorem processSections_complete (t : SDT) (ss : List Section) (hne : ss ≠ [])
    (h : ∀ s ∈ ss, s.tableId = t._table_id ∧ 3 ≤ s.payload.length) :
    t.processSections ss = { t with
      _is_valid := true
      version := (ss.getLast hne).version
      is_current := (ss.getLast hne).isCurrent
      ts_id := (ss.getLast hne).tableIdExtension
      onetw_id := GetUInt16 (ss.getLast hne).payload
      services := parseAll (bodiesOf ss) t.services } := by
  induction ss generalizing t with
  | nil => cases hne rfl
  | cons s rest ih =>
    obtain ⟨htid, hlen⟩ := h s (List.mem_cons_self s rest)
    rw [SDT.processSections, if_neg (by simp [htid]), if_neg (by omega)]
    cases rest with
    | nil => rfl
    | cons s2 rest2 =>
      refine (ih _ (by simp) (fun q hq => ?_)).trans ?_
      · exact ⟨(h q (List.mem_cons_of_mem s hq)).1, (h q (List.mem_cons_of_mem s hq)).2⟩
      · rfl


theorem descWF_length_le (d : List Nat) (h : DescWF d) : d.length ≤ 257 := by
  obtain ⟨h2, hl, hb⟩ := h
  have hmem : d.getD 1 0 ∈ d := by
    rw [List.getD_eq_getElem d 0 (by omega)]
    exact List.getElem_mem (by omega)
  have := hb _ hmem
  omega

theorem descsAt_of_none (m : ServiceMap) (k : Nat) (h : mapGet m k = none) :
    descsAt m k = [] := by
  unfold descsAt
  rw [h]
  rfl

theorem descsAt_of_some (m : ServiceMap) (k : Nat) (v : Service)
    (h : mapGet m k = some v) : descsAt m k = v.descs := by
  unfold descsAt
  rw [h]
  rfl

theorem writeChunk_encOk (t : SDT) (st : SerState) (cur : ServiceMap)
    (service_id : Nat) (serv : Service) (bs : List Nat)
    (hid : service_id < 65536) (hrs : serv.running_status < 8)
    (hbslen : bs.length ≤ st.remain - 5) (hrem : 5 ≤ st.remain)
    (hinv : EncOk t st cur) :
    EncOk t { st with buf := st.buf ++ encChunk service_id serv bs }
      (chunkApply service_id serv bs cur) := by
  obtain ⟨h1, h2, h3, h4, h5, h6, f, hf, hfm⟩ := hinv
  have hmax : MAX_PSI_LONG_SECTION_PAYLOAD_SIZE = 1012 := rfl
  have hremeq : st.remain = 1012 - st.buf.length := rfl
  refine ⟨?_, ?_, ?_, h4, h5, h6, ?_⟩
  · show (st.buf ++ encChunk service_id serv bs).take 3 = t.hdr3
    rw [List.take_append_of_le_length (by omega), h1]
  · show 3 ≤ (st.buf ++ encChunk service_id serv bs).length
    rw [List.length_append]
    omega
  · show (st.buf ++ encChunk service_id serv bs).length ≤
      MAX_PSI_LONG_SECTION_PAYLOAD_SIZE
    rw [List.length_append, encChunk_length, hmax]
    omega
  · refine ⟨chunkApply service_id serv bs ∘ f, ?_, ?_⟩
    · show ParsesTo ((st.buf ++ encChunk service_id serv bs).drop 3) _
      rw [List.drop_append_of_le_length (by omega)]
      exact parsesTo_append _ _ _ _ hf
        (parsesTo_chunk service_id serv bs hid hrs (by omega))
    · show chunkApply service_id serv bs
        (f (parseAll (bodiesOf st.sections) [])) = _
      rw [hfm]


theorem serveLoop_step (t : SDT) (service_id : Nat) (serv : Service)
    (fuel : Nat) (starting : Bool) (ds : List (List Nat)) (st st1 : SerState)
    (h : ¬(starting = false ∧ ds = []))
    (hst1 : st1 = if starting ∧ st.remain < 5 + binarySize ds
      then t.addSection st else st) :
    t.serveLoop service_id serv (fuel + 1) starting ds st =
      t.serveLoop service_id serv fuel false
        (serializePartial (st1.remain - 5) ds).2
        (if (serializePartial (st1.remain - 5) ds).2 ≠ [] then
          t.addSection { st1 with
            buf := st1.buf ++ encChunk service_id serv
              (serializePartial (st1.remain - 5) ds).1 }
         else { st1 with
            buf := st1.buf ++ encChunk service_id serv
              (serializePartial (st1.remain - 5) ds).1 }) := by
  subst hst1
  rw [SDT.serveLoop, if_neg h]

theorem addSection_buf_len (t : SDT) (st : SerState) (h : 3 ≤ st.buf.length) :
    (t.addSection st).buf.length = 3 := by
  show (st.buf.take 3).length = 3
  rw [List.length_take]
  omega

theorem serializePartial_progress2 (b : Nat) (ds : List (List Nat))
    (hne : ds ≠ []) (hd : ∀ d ∈ ds, d.length ≤ b) :
    (serializePartial b ds).2.length < ds.length := by
  cases ds with
  | nil => cases hne rfl
  | cons d ds' =>
    have h := serializePartial_progress b d ds' (hd d (List.mem_cons_self d ds'))
    simp only [List.length_cons]
    omega

theorem serveLoop_common (t : SDT) (service_id : Nat) (serv : Service)
    (done cur : ServiceMap) (fuel : Nat) (ds pre : List (List Nat))
    (st1 : SerState)
    (hid : service_id < 65536) (hrs : serv.running_status < 8)
    (hwfd : ∀ d ∈ serv.descs, DescWF d)
    (ih : ∀ (ds₂ pre₂ : List (List Nat)) (starting₂ : Bool) (st₂ : SerState),
      serv.descs = pre₂ ++ ds₂ →
      (starting₂ = true → pre₂ = []) →
      (starting₂ = false → ds₂ = [] ∨ st₂.buf.length = 3) →
      EncOk t st₂ (done ++ (if starting₂ then [] else
        [(service_id, { serv with descs := pre₂ })])) →
      ds₂.length + (if starting₂ then 2 else 1) ≤ fuel →
      ∃ st', t.serveLoop service_id serv fuel starting₂ ds₂ st₂ = some st' ∧
        EncOk t st' (done ++ [(service_id, serv)]))
    (hsplit : serv.descs = pre ++ ds)
    (hcur : EncOk t st1 cur)
    (hget : descsAt cur service_id = pre)
    (hins : ∀ v, mapInsert cur service_id v = done ++ [(service_id, v)])
    (hfuelc : ds.length + 1 ≤ fuel ∨
      (st1.buf.length = 3 ∧ ds ≠ [] ∧ ds.length ≤ fuel))
    (hrem5 : 5 ≤ st1.remain) :
    ∃ st', t.serveLoop service_id serv fuel false
        (serializePartial (st1.remain - 5) ds).2
        (if (serializePartial (st1.remain - 5) ds).2 ≠ [] then
          t.addSection { st1 with
            buf := st1.buf ++ encChunk service_id serv
              (serializePartial (st1.remain - 5) ds).1 }
         else { st1 with
            buf := st1.buf ++ encChunk service_id serv
              (serializePartial (st1.remain - 5) ds).1 }) = some st' ∧
      EncOk t st' (done ++ [(service_id, serv)]) := by
  obtain ⟨taken, htk, hbs, hbslen, hrest⟩ :=
    serializePartial_spec (st1.remain - 5) ds
  rw [hbs] at hbslen
  rw [hbs]
  set r2 := (serializePartial (st1.remain - 5) ds).2 with hr2def
  have hwft : ∀ d ∈ taken, DescWF d := by
    intro d hd
    apply hwfd
    rw [hsplit, htk]
    exact List.mem_append.mpr (Or.inr (List.mem_append.mpr (Or.inl hd)))
  have hw := writeChunk_encOk t st1 cur service_id serv taken.flatten
    hid hrs hbslen hrem5 hcur
  have hca : chunkApply service_id serv taken.flatten cur =
      done ++ [(service_id, { serv with descs := pre ++ taken })] := by
    unfold chunkApply
    rw [hget, descAdd_flatten taken hwft, hins]
  rw [hca] at hw
  have hsplit2 : serv.descs = (pre ++ taken) ++ r2 := by
    rw [List.append_assoc, ← htk]
    exact hsplit
  by_cases hr2 : r2 = []
  · rw [if_neg (by simpa using hr2)]
    refine ih r2 (pre ++ taken) false _ hsplit2 (fun h => nomatch h)
      (fun _ => Or.inl hr2) (by simpa using hw) ?_
    have h1 : r2.length = 0 := by rw [hr2]; rfl
    rcases hfuelc with h | ⟨_, hne, hlen⟩
    · simp only [if_neg (by simp : ¬ ((false : Bool) = true))]
      omega
    · have h2 : 1 ≤ ds.length := by
        cases ds with
        | nil => cases hne rfl
        | cons a b => simp
      simp only [if_neg (by simp : ¬ ((false : Bool) = true))]
      omega
  · rw [if_pos (by simpa using hr2)]
    have hlen3 := hw.len3
    refine ih r2 (pre ++ taken) false _ hsplit2 (fun h => nomatch h)
      (fun _ => Or.inr (addSection_buf_len t _ hlen3))
      (by simpa using addSection_encOk t _ _ hw) ?_
    simp only [if_neg (by simp : ¬ ((false : Bool) = true))]
    rcases hfuelc with h | ⟨hbuf1, hne, hlen⟩
    · omega
    · have hbudget : st1.remain = 1009 := by
        show MAX_PSI_LONG_SECTION_PAYLOAD_SIZE - st1.buf.length = 1009
        rw [hbuf1]
        rfl
      have hall : ∀ d ∈ ds, d.length ≤ st1.remain - 5 := by
        intro d hd
        have hdwf : DescWF d := hwfd d (by
          rw [hsplit]
          exact List.mem_append.mpr (Or.inr hd))
        have := descWF_length_le d hdwf
        omega
      have hprog := serializePartial_progress2 (st1.remain - 5) ds hne hall
      rw [← hr2def] at hprog
      omega


theorem serveLoop_ok (t : SDT) (service_id : Nat) (serv : Service)
    (done : ServiceMap)
    (hid : service_id < 65536) (hrs : serv.running_status < 8)
    (hwfd : ∀ d ∈ serv.descs, DescWF d)
    (hkeys : ∀ p ∈ done, p.1 < service_id) :
    ∀ (fuel : Nat) (ds pre : List (List Nat)) (starting : Bool) (st : SerState),
      serv.descs = pre ++ ds →
      (starting = true → pre = []) →
      (starting = false → ds = [] ∨ st.buf.length = 3) →
      EncOk t st (done ++ (if starting then [] else
        [(service_id, { serv with descs := pre })])) →
      ds.length + (if starting then 2 else 1) ≤ fuel →
      ∃ st', t.serveLoop service_id serv fuel starting ds st = some st' ∧
        EncOk t st' (done ++ [(service_id, serv)]) := by
  intro fuel
  induction fuel with
  | zero =>
    intro ds pre starting st _ _ _ _ hfuel
    exfalso
    cases starting <;> simp at hfuel
  | succ fuel ih =>
    intro ds pre starting st hsplit hstart hbuf3 hinv hfuel
    by_cases hterm : starting = false ∧ ds = []
    · rw [SDT.serveLoop, if_pos hterm]
      obtain ⟨hsf, hdse⟩ := hterm
      refine ⟨st, rfl, ?_⟩
      rw [hsf] at hinv
      simp only [Bool.false_eq_true, if_false] at hinv
      have hps : ({ serv with descs := pre } : Service) = serv := by
        rw [show pre = serv.descs from by rw [hsplit, hdse, List.append_nil]]
      rw [hps] at hinv
      exact hinv
    · cases hst : starting with
      | true =>
        rw [hst] at hstart hinv hfuel
        have hpre := hstart rfl
        subst hpre
        rw [List.nil_append] at hsplit
        simp only [eq_self_iff_true, if_true, List.append_nil] at hinv hfuel
        have hkget : descsAt done service_id = [] :=
          descsAt_of_none _ _ (mapGet_eq_none done service_id hkeys)
        have hkins : ∀ v, mapInsert done service_id v =
            done ++ [(service_id, v)] :=
          fun v => mapInsert_eq_append done service_id v hkeys
        by_cases hfl : (true : Bool) = true ∧ st.remain < 5 + binarySize ds
        · rw [serveLoop_step t service_id serv fuel true ds st (t.addSection st)
            (by simp) (by rw [if_pos hfl])]
          have hinv1 := addSection_encOk t st done hinv
          refine serveLoop_common t service_id serv done done fuel ds []
            (t.addSection st) hid hrs hwfd ih hsplit hinv1 hkget hkins ?_ ?_
          · left
            omega
          · have hb3 := addSection_buf_len t st hinv.len3
            show 5 ≤ MAX_PSI_LONG_SECTION_PAYLOAD_SIZE - (t.addSection st).buf.length
            rw [hb3]
            decide
        · rw [serveLoop_step t service_id serv fuel true ds st st
            (by simp) (by rw [if_neg hfl])]
          have hge : 5 + binarySize ds ≤ st.remain := by
            rcases Nat.lt_or_ge st.remain (5 + binarySize ds) with h | h
            · exact absurd ⟨rfl, h⟩ hfl
            · exact h
          refine serveLoop_common t service_id serv done done fuel ds []
            st hid hrs hwfd ih hsplit hinv hkget hkins ?_ ?_
          · left
            omega
          · omega
      | false =>
        rw [hst] at hstart hbuf3 hinv hfuel
        simp only [Bool.false_eq_true, if_false] at hinv hfuel
        have hds : ds ≠ [] := by
          intro h
          exact hterm ⟨hst ▸ rfl, h⟩
        have hb3 : st.buf.length = 3 := by
          rcases hbuf3 rfl with h | h
          · exact absurd h hds
          · exact h
        have hkget : descsAt (done ++ [(service_id, { serv with descs := pre })])
            service_id = pre :=
          descsAt_of_some _ _ _ (mapGet_append_self done service_id _ hkeys)
        have hkins : ∀ v, mapInsert (done ++ [(service_id,
            { serv with descs := pre })]) service_id v =
            done ++ [(service_id, v)] :=
          fun v => mapInsert_append_self done service_id _ v hkeys
        have hnofl : ¬((false : Bool) = true ∧ st.remain < 5 + binarySize ds) := by
          rintro ⟨h, _⟩
          cases h
        rw [serveLoop_step t service_id serv fuel false ds st st
          (by simpa using hds) (by rw [if_neg hnofl])]
        refine serveLoop_common t service_id serv done
          (done ++ [(service_id, { serv with descs := pre })]) fuel ds pre
          st hid hrs hwfd ih hsplit hinv hkget hkins ?_ ?_
        · right
          exact ⟨hb3, hds, by omega⟩
        · show 5 ≤ MAX_PSI_LONG_SECTION_PAYLOAD_SIZE - st.buf.length
          rw [hb3]
          decide


theorem serveAll_step (t : SDT) (service_id : Nat) (serv : Service)
    (rest : ServiceMap) (st st1 st2 : SerState)
    (hst1 : st1 = if st.remain < 5 then t.addSection st else st)
    (hrun : t.serveLoop service_id serv (serv.descs.length + 2) true
      serv.descs st1 = some st2) :
    t.serveAll ((service_id, serv) :: rest) st = t.serveAll rest st2 := by
  subst hst1
  rw [SDT.serveAll, hrun]

theorem serveAll_ok (t : SDT) :
    ∀ (svcs done : ServiceMap) (st : SerState),
      (done ++ svcs).Pairwise (fun a b => a.1 < b.1) →
      (∀ p ∈ svcs, svcWF p) →
      EncOk t st done →
      ∃ st', t.serveAll svcs st = some st' ∧ EncOk t st' (done ++ svcs) := by
  intro svcs
  induction svcs with
  | nil =>
    intro done st _ _ hinv
    exact ⟨st, rfl, by simpa using hinv⟩
  | cons p rest ih =>
    intro done st hpw hwf hinv
    obtain ⟨service_id, serv⟩ := p
    obtain ⟨hid, hrs, hwfd⟩ := hwf _ (List.mem_cons_self _ rest)
    have hkeys : ∀ q ∈ done, q.1 < service_id := by
      intro q hq
      have := (List.pairwise_append.mp hpw).2.2 q hq (service_id, serv)
        (List.mem_cons_self _ rest)
      exact this
    have hinv1 : EncOk t (if st.remain < 5 then t.addSection st else st) done := by
      by_cases h : st.remain < 5
      · rw [if_pos h]
        exact addSection_encOk t st done hinv
      · rw [if_neg h]
        exact hinv
    obtain ⟨st2, hrun, hinv2⟩ := serveLoop_ok t service_id serv done hid hrs hwfd
      hkeys (serv.descs.length + 2) serv.descs [] true
      (if st.remain < 5 then t.addSection st else st)
      (by rw [List.nil_append]) (fun _ => rfl) (fun h => nomatch h)
      (by simpa using hinv1) (by simp)
    rw [serveAll_step t service_id serv rest st _ st2 rfl hrun]
    have hpw2 : ((done ++ [(service_id, serv)]) ++ rest).Pairwise
        (fun a b => a.1 < b.1) := by
      rw [List.append_assoc, List.singleton_append]
      exact hpw
    obtain ⟨st', hrun2, hinv3⟩ := ih (done ++ [(service_id, serv)]) st2 hpw2
      (fun q hq => hwf q (List.mem_cons_of_mem _ hq)) hinv2
    refine ⟨st', hrun2, ?_⟩
    rw [List.append_assoc, List.singleton_append] at hinv3
    exact hinv3


theorem hdr3_take (t : SDT) : t.hdr3.take 3 = t.hdr3 := rfl

theorem encOk_init (t : SDT) : EncOk t ⟨[], 0, t.hdr3⟩ [] := by
  refine ⟨rfl, by simp [SDT.hdr3], by simp [SDT.hdr3]; decide, rfl, by simp, ?_, ?_⟩
  · intro i s hs
    simp at hs
  · refine ⟨id, ?_, rfl⟩
    show ParsesTo (t.hdr3.drop 3) id
    rw [show t.hdr3.drop 3 = [] from rfl]
    exact parsesTo_nil

theorem serialize_ok (t : SDT) (out : BinaryTable)
    (hv : t._is_valid = true) (hwf : t.wf) :
    ∃ bt, t.serialize out = some bt ∧
      bt.sections ≠ [] ∧
      (∀ s ∈ bt.sections, s.tableId = t._table_id ∧ s.tableIdExtension = t.ts_id ∧
        s.version = t.version ∧ s.isCurrent = t.is_current ∧
        s.payload.take 3 = t.hdr3 ∧ 3 ≤ s.payload.length ∧
        s.payload.length ≤ MAX_PSI_LONG_SECTION_PAYLOAD_SIZE) ∧
      (∀ i s, bt.sections[i]? = some s →
        s.sectionNumber = i % 256 ∧ s.lastSectionNumber = i % 256) ∧
      parseAll (bodiesOf bt.sections) [] = t.services := by
  obtain ⟨htid, hver, hts, honetw, hpw, hsvc⟩ := hwf
  obtain ⟨stF, hrun, hinvF⟩ := serveAll_ok t t.services [] ⟨[], 0, t.hdr3⟩
    (by simpa using hpw) hsvc (encOk_init t)
  rw [List.nil_append] at hinvF
  have hser : t.serialize out = some { sections :=
      (if 3 < stF.buf.length ∨ stF.sections.length = 0
        then t.addSection stF else stF).sections } := by
    rw [SDT.serialize, if_neg (by rw [hv]; simp)]
    simp only [hrun]
  by_cases hfin : 3 < stF.buf.length ∨ stF.sections.length = 0
  · rw [if_pos hfin] at hser
    have hinv2 := addSection_encOk t _ _ hinvF
    refine ⟨_, hser, ?_, hinv2.secProps, hinv2.secNums, ?_⟩
    · show stF.sections ++ [_] ≠ []
      simp
    · obtain ⟨f, hf, hfm⟩ := hinvF.decOk
      show parseAll (bodiesOf (stF.sections ++ [_])) [] = t.services
      rw [bodiesOf_append, parseAll_append]
      show parseAll (bodiesOf [_]) (parseAll (bodiesOf stF.sections) []) = t.services
      show parseServices (stF.buf.drop 3) (parseAll (bodiesOf stF.sections) [])
        = t.services
      rw [parsesTo_run _ _ hf]
      exact hfm
  · rw [if_neg hfin] at hser
    push_neg at hfin
    obtain ⟨hlen, hnz⟩ := hfin
    refine ⟨_, hser, ?_, hinvF.secProps, hinvF.secNums, ?_⟩
    · show stF.sections ≠ []
      intro h
      rw [h] at hnz
      simp at hnz
    · obtain ⟨f, hf, hfm⟩ := hinvF.decOk
      have hbuf3 : stF.buf.drop 3 = [] :=
        List.drop_eq_nil_of_le (by omega)
      rw [hbuf3] at hf
      have hfid : ∀ m, f m = m := by
        intro m
        have := parsesTo_run [] f hf m
        rw [parseServices_nil] at this
        exact this.symm
      show parseAll (bodiesOf stF.sections) [] = t.services
      rw [← hfm, hfid]


theorem deserialize_unfold (s : SDT) (bt : BinaryTable) :
    s.deserialize bt =
      (if bt.isValid = false then s.clearedOf
       else if bt.tableId ≠ TID_SDT_ACT ∧ bt.tableId ≠ TID_SDT_OTH then
         s.clearedWithTid bt.tableId
       else (s.clearedWithTid bt.tableId).processSections bt.sections) := rfl

theorem getUInt16_take3 (p : List Nat) (o : Nat) (hlen : 3 ≤ p.length)
    (htake : p.take 3 = [o / 256 % 256, o % 256, 255]) (ho : o < 65536) :
    GetUInt16 p = o := by
  have hsplit : p = p.take 3 ++ p.drop 3 := (List.take_append_drop 3 p).symm
  have h0 : p.getD 0 0 = o / 256 % 256 := by
    conv_lhs => rw [hsplit]
    rw [List.getD_append _ _ _ _ (by rw [htake]; simp), htake]
    rfl
  have h1 : p.getD 1 0 = o % 256 := by
    conv_lhs => rw [hsplit]
    rw [List.getD_append _ _ _ _ (by rw [htake]; simp), htake]
    rfl
  unfold GetUInt16
  rw [h0, h1]
  omega

theorem roundtrip_main (t : SDT) (out : BinaryTable) (s : SDT)
    (hv : t._is_valid = true) (hwf : t.wf) :
    ∃ bt, t.serialize out = some bt ∧
      (s.deserialize bt)._is_valid = true ∧
      (s.deserialize bt)._table_id = t._table_id ∧
      (s.deserialize bt).version = t.version ∧
      (s.deserialize bt).is_current = t.is_current ∧
      (s.deserialize bt).ts_id = t.ts_id ∧
      (s.deserialize bt).onetw_id = t.onetw_id ∧
      (s.deserialize bt).services = t.services := by
  obtain ⟨bt, hser, hne, hprops, _, hparse⟩ := serialize_ok t out hv hwf
  refine ⟨bt, hser, ?_⟩
  have hval : bt.isValid = true := by
    unfold BinaryTable.isValid
    exact decide_eq_true hne
  have htbid : bt.tableId = t._table_id := by
    cases hsec : bt.sections with
    | nil => exact absurd hsec hne
    | cons s0 ss =>
      show ((bt.sections.head?).map Section.tableId).getD 0 = t._table_id
      rw [hsec]
      simp only [List.head?_cons, Option.map_some, Option.getD_some]
      exact (hprops s0 (by rw [hsec]; exact List.mem_cons_self s0 ss)).1
  have htag : ¬(bt.tableId ≠ TID_SDT_ACT ∧ bt.tableId ≠ TID_SDT_OTH) := by
    rw [htbid]
    rcases hwf.1 with h | h <;> simp [h]
  have hdes : s.deserialize bt =
      (s.clearedWithTid bt.tableId).processSections bt.sections := by
    rw [deserialize_unfold, if_neg (by rw [hval]; simp), if_neg htag]
  have hcomp := processSections_complete (s.clearedWithTid bt.tableId)
      bt.sections hne (by
        intro sec hsec
        refine ⟨?_, (hprops sec hsec).2.2.2.2.2.1⟩
        show sec.tableId = bt.tableId
        rw [htbid]
        exact (hprops sec hsec).1)
  rw [hdes, hcomp]
  have hlast := hprops (bt.sections.getLast hne) (List.getLast_mem hne)
  obtain ⟨hl1, hl2, hl3, hl4, hl5, hl6, hl7⟩ := hlast
  have honetw : GetUInt16 (bt.sections.getLast hne).payload = t.onetw_id := by
    apply getUInt16_take3 _ _ hl6 _ hwf.2.2.2.1
    rw [hl5]
    rfl
  refine ⟨rfl, htbid, hl3, hl4, hl2, honetw, ?_⟩
  show parseAll (bodiesOf bt.sections) ((s.clearedWithTid bt.tableId).services)
    = t.services
  show parseAll (bodiesOf bt.sections) [] = t.services
  exact hparse


theorem serveLoop_empty (t : SDT) (service_id : Nat) (serv : Service)
    (st : SerState) (h5 : 5 ≤ st.remain) :
    t.serveLoop service_id serv 2 true [] st =
      some { st with buf := st.buf ++ encChunk service_id serv [] } := by
  rw [serveLoop_step t service_id serv 1 true [] st st (by simp)
    (by rw [if_neg (by rintro ⟨_, h⟩; rw [binarySize_nil] at h; omega)])]
  rw [show (serializePartial (st.remain - 5) []).2 = [] from rfl]
  rw [if_neg (by simp)]
  rw [show (serializePartial (st.remain - 5) []).1 = [] from rfl]
  rw [SDT.serveLoop, if_pos ⟨rfl, rfl⟩]

theorem serveAll_empty_sim (t : SDT) :
    ∀ (svcs : ServiceMap) (st : SerState) (u : Nat),
      (∀ p ∈ svcs, p.2.descs = []) →
      st.buf.length = 3 + 5 * u →
      u ≤ 201 →
      ∃ st' u', t.serveAll svcs st = some st' ∧
        st'.buf.length = 3 + 5 * u' ∧ u' ≤ 201 ∧
        (svcs.length = 0 → st' = st) ∧
        (1 ≤ svcs.length → 1 ≤ u') ∧
        201 * st'.sections.length + u' =
          201 * st.sections.length + u + svcs.length := by
  intro svcs
  induction svcs with
  | nil =>
    intro st u _ hbuf hu
    exact ⟨st, u, rfl, hbuf, hu, fun _ => rfl, fun h => by simp at h, by simp⟩
  | cons p rest ih =>
    intro st u hempty hbuf hu
    obtain ⟨service_id, serv⟩ := p
    have hds : serv.descs = [] := hempty _ (List.mem_cons_self _ rest)
    have hM : MAX_PSI_LONG_SECTION_PAYLOAD_SIZE = 1012 := rfl
    have hrem : st.remain = 1009 - 5 * u := by
      show MAX_PSI_LONG_SECTION_PAYLOAD_SIZE - st.buf.length = 1009 - 5 * u
      omega
    by_cases hfull : u = 201
    · -- buffer full: the outer check flushes, then one 5-byte entry is written
      have hlt : st.remain < 5 := by omega
      have hb1 : (t.addSection st).buf.length = 3 :=
        addSection_buf_len t st (by omega)
      have hsecA : (t.addSection st).sections.length = st.sections.length + 1 := by
        simp [SDT.addSection]
      have hremA : 5 ≤ (t.addSection st).remain := by
        show 5 ≤ MAX_PSI_LONG_SECTION_PAYLOAD_SIZE - (t.addSection st).buf.length
        omega
      have hstep := serveAll_step t service_id serv rest st (t.addSection st)
        ⟨(t.addSection st).sections, (t.addSection st).secnum,
          (t.addSection st).buf ++ encChunk service_id serv []⟩
        (by rw [if_pos hlt])
        (by rw [hds]; exact serveLoop_empty t service_id serv _ hremA)
      rw [hstep]
      obtain ⟨st', u', hrun, hbuf', hu', hz', ho', harith⟩ := ih
        ⟨(t.addSection st).sections, (t.addSection st).secnum,
          (t.addSection st).buf ++ encChunk service_id serv []⟩ 1
        (fun q hq => hempty q (List.mem_cons_of_mem _ hq))
        (by show ((t.addSection st).buf ++ encChunk service_id serv []).length
              = 3 + 5 * 1
            rw [List.length_append, hb1, encChunk_length]
            rfl)
        (by omega)
      have e1 : (⟨(t.addSection st).sections, (t.addSection st).secnum,
          (t.addSection st).buf ++ encChunk service_id serv []⟩ :
          SerState).sections.length = (t.addSection st).sections.length := rfl
      rw [e1] at harith
      refine ⟨st', u', hrun, hbuf', hu', ?_, ?_, ?_⟩
      · intro h
        simp at h
      · intro _
        rcases Nat.eq_zero_or_pos rest.length with h0 | h0
        · have := hz' h0
          subst this
          omega
        · exact ho' h0
      · simp only [List.length_cons]
        omega
    · -- room for the fixed part: no flush, one 5-byte entry is written
      have hge : ¬ st.remain < 5 := by omega
      have hrem2 : 5 ≤ st.remain := by omega
      have hstep := serveAll_step t service_id serv rest st st
        ⟨st.sections, st.secnum, st.buf ++ encChunk service_id serv []⟩
        (by rw [if_neg hge])
        (by rw [hds]; exact serveLoop_empty t service_id serv st hrem2)
      rw [hstep]
      obtain ⟨st', u', hrun, hbuf', hu', hz', ho', harith⟩ := ih
        ⟨st.sections, st.secnum, st.buf ++ encChunk service_id serv []⟩ (u + 1)
        (fun q hq => hempty q (List.mem_cons_of_mem _ hq))
        (by show (st.buf ++ encChunk service_id serv []).length = 3 + 5 * (u + 1)
            rw [List.length_append, hbuf, encChunk_length, List.length_nil]
            omega)
        (by omega)
      have e1 : (⟨st.sections, st.secnum,
          st.buf ++ encChunk service_id serv []⟩ :
          SerState).sections.length = st.sections.length := rfl
      rw [e1] at harith
      refine ⟨st', u', hrun, hbuf', hu', ?_, ?_, ?_⟩
      · intro h
        simp at h
      · intro _
        rcases Nat.eq_zero_or_pos rest.length with h0 | h0
        · have := hz' h0
          subst this
          omega
        · exact ho' h0
      · simp only [List.length_cons]
        omega

theorem serialize_empty_count (t : SDT) (out : BinaryTable)
    (hv : t._is_valid = true)
    (hempty : ∀ p ∈ t.services, p.2.descs = []) :
    ∃ bt, t.serialize out = some bt ∧
      bt.sections.length = max 1 ((t.services.length + 200) / 201) := by
  obtain ⟨st', u', hrun, hbuf, hu, hz, ho, harith⟩ := serveAll_empty_sim t
    t.services ⟨[], 0, t.hdr3⟩ 0 hempty (by simp [SDT.hdr3]) (by omega)
  have hser : t.serialize out = some { sections :=
      (if 3 < st'.buf.length ∨ st'.sections.length = 0
        then t.addSection st' else st').sections } := by
    rw [SDT.serialize, if_neg (by rw [hv]; simp)]
    simp only [hrun]
  have hb0 : ({ sections := [], secnum := 0, buf := t.hdr3 } :
      SerState).sections.length = 0 := rfl
  rw [hb0] at harith
  rcases Nat.eq_zero_or_pos t.services.length with hn | hn
  · have hst : st' = ⟨[], 0, t.hdr3⟩ := hz hn
    subst hst
    rw [if_pos (by right; rfl)] at hser
    refine ⟨_, hser, ?_⟩
    rw [hn]
    rfl
  · have hu1 : 1 ≤ u' := ho hn
    rw [if_pos (by left; omega)] at hser
    refine ⟨_, hser, ?_⟩
    show (t.addSection st').sections.length = _
    simp only [SDT.addSection, List.length_append, List.length_singleton]
    rw [Nat.max_eq_right (by omega)]
    omega


theorem descsAt_nil (k : Nat) : descsAt [] k = [] := rfl

theorem descsAt_insert_self (m : ServiceMap) (k : Nat) (v : Service) :
    descsAt (mapInsert m k v) k = v.descs := by
  unfold descsAt
  rw [mapGet_insert_self]
  rfl

theorem descsAt_insert_ne (m : ServiceMap) (k k' : Nat) (v : Service)
    (h : k' ≠ k) : descsAt (mapInsert m k v) k' = descsAt m k' := by
  unfold descsAt
  rw [mapGet_insert_ne _ _ _ _ h]

theorem stepServ_descs (data : List Nat) (m : ServiceMap) :
    (stepServ data m).descs = descsAt m (GetUInt16 data) ++
      descAdd ((data.drop 5).take (stepInfo data)) := by
  unfold stepServ
  rw [descsAt_eq]

theorem descsAt_parse (k : Nat) : ∀ (n : Nat) (data : List Nat)
    (m : ServiceMap), data.length ≤ n →
    descsAt (parseServices data m) k =
      descsAt m k ++ descsAt (parseServices data []) k := by
  intro n
  induction n with
  | zero =>
    intro data m hlen
    have hnil : data = [] := List.eq_nil_of_length_eq_zero (by omega)
    subst hnil
    rw [parseServices_nil, parseServices_nil, descsAt_nil, List.append_nil]
  | succ n ih =>
    intro data m hlen
    by_cases h5 : data.length < 5
    · rw [parseServices_short _ _ h5, parseServices_short _ _ h5, descsAt_nil,
        List.append_nil]
    · rw [parseServices_step data m h5, parseServices_step data [] h5]
      have hdlen : (data.drop (5 + stepInfo data)).length ≤ n := by
        rw [List.length_drop]
        omega
      rw [ih _ _ hdlen, ih _ (mapInsert [] (GetUInt16 data)
        (stepServ data [])) hdlen]
      by_cases hk : GetUInt16 data = k
      · subst hk
        rw [descsAt_insert_self, descsAt_insert_self, stepServ_descs,
          stepServ_descs, descsAt_nil, List.nil_append, List.append_assoc]
      · rw [descsAt_insert_ne _ _ _ _ (fun hh => hk hh.symm),
          descsAt_insert_ne _ _ _ _ (fun hh => hk hh.symm), descsAt_nil,
          List.nil_append]

theorem stepInfo_le (data : List Nat) (h : ¬ data.length < 5) :
    stepInfo data ≤ data.length - 5 := by
  unfold stepInfo
  omega

theorem descsAt_parse_le (k : Nat) : ∀ (n : Nat) (data : List Nat)
    (m : ServiceMap), data.length ≤ n →
    binarySize (descsAt (parseServices data m) k) ≤
      binarySize (descsAt m k) + (data.length - 5) := by
  intro n
  induction n with
  | zero =>
    intro data m hlen
    have hnil : data = [] := List.eq_nil_of_length_eq_zero (by omega)
    subst hnil
    rw [parseServices_nil]
    omega
  | succ n ih =>
    intro data m hlen
    by_cases h5 : data.length < 5
    · rw [parseServices_short _ _ h5]
      omega
    · rw [parseServices_step data m h5]
      have hdlen : (data.drop (5 + stepInfo data)).length ≤ n := by
        rw [List.length_drop]
        omega
      have hrec := ih (data.drop (5 + stepInfo data))
        (mapInsert m (GetUInt16 data) (stepServ data m)) hdlen
      rw [List.length_drop] at hrec
      have hchunk : binarySize (descAdd ((data.drop 5).take (stepInfo data))) ≤
          stepInfo data := by
        have h1 := binarySize_descAdd_le ((data.drop 5).take (stepInfo data))
        have h2 : ((data.drop 5).take (stepInfo data)).length ≤ stepInfo data := by
          rw [List.length_take]
          omega
        omega
      by_cases hk : GetUInt16 data = k
      · subst hk
        rw [descsAt_insert_self, stepServ_descs, binarySize_append] at hrec
        have hi := stepInfo_le data h5
        omega
      · rw [descsAt_insert_ne _ _ _ _ (fun hh => hk hh.symm)] at hrec
        have hi := stepInfo_le data h5
        omega

theorem descsAt_parseAll (k : Nat) (bodies : List (List Nat)) :
    ∀ m, descsAt (parseAll bodies m) k = descsAt m k ++
      (bodies.map (fun b => descsAt (parseServices b []) k)).flatten := by
  induction bodies with
  | nil =>
    intro m
    rw [parseAll_nil]
    simp
  | cons b bs ih =>
    intro m
    rw [parseAll_cons, ih, descsAt_parse k (b.length) b m (Nat.le_refl _)]
    simp [List.append_assoc]

theorem binarySize_flatten (LL : List (List (List Nat))) :
    binarySize LL.flatten = (LL.map binarySize).sum := by
  induction LL with
  | nil => rfl
  | cons a as ih =>
    rw [List.flatten_cons, binarySize_append, List.map_cons, List.sum_cons, ih]

theorem sum_le_mul_countP (B : Nat) (xs : List Nat) (h : ∀ x ∈ xs, x ≤ B) :
    xs.sum ≤ B * (xs.countP (fun x => decide (x ≠ 0))) := by
  induction xs with
  | nil => simp
  | cons x rest ih =>
    have hx := h x (List.mem_cons_self x rest)
    have hr := ih (fun q hq => h q (List.mem_cons_of_mem x hq))
    rw [List.sum_cons]
    by_cases hz : x = 0
    · subst hz
      rw [List.countP_cons]
      simp only [decide_eq_true_eq]
      rw [if_neg (by simp), Nat.add_zero]
      omega
    · rw [List.countP_cons]
      rw [if_pos (by simpa using hz)]
      rw [Nat.mul_add, Nat.mul_one]
      omega


theorem split_entry_sections (t : SDT) (out : BinaryTable) (s : SDT)
    (hv : t._is_valid = true) (hwf : t.wf)
    (k : Nat) (serv : Service) (hmem : (k, serv) ∈ t.services)
    (hbig : 1004 < binarySize serv.descs) :
    ∃ bt, t.serialize out = some bt ∧
      descsAt (s.deserialize bt).services k = serv.descs ∧
      2 ≤ bt.sections.countP (fun sec => decide (sectionPart k sec ≠ 0)) ∧
      2 ≤ bt.sections.length := by
  obtain ⟨bt, hser, hrt⟩ := roundtrip_main t out s hv hwf
  obtain ⟨bt2, hser2, hne, hprops, hnums, hparse⟩ := serialize_ok t out hv hwf
  rw [hser] at hser2
  have hbteq : bt2 = bt := (Option.some.inj hser2).symm
  rw [hbteq] at hne hprops hnums hparse
  have hserv : descsAt t.services k = serv.descs := by
    unfold descsAt
    rw [mapGet_of_pairwise_mem t.services k serv hwf.2.2.2.2.1 hmem]
    rfl
  have hdec : descsAt (s.deserialize bt).services k = serv.descs := by
    rw [hrt.2.2.2.2.2.2, hserv]
  have hflat : descsAt (parseAll (bodiesOf bt.sections) []) k =
      ((bodiesOf bt.sections).map
        (fun b => descsAt (parseServices b []) k)).flatten := by
    rw [descsAt_parseAll, descsAt_nil, List.nil_append]
  have hsum : ((bodiesOf bt.sections).map
      (fun b => binarySize (descsAt (parseServices b []) k))).sum =
      binarySize serv.descs := by
    have h1 : binarySize (descsAt (parseAll (bodiesOf bt.sections) []) k) =
        binarySize serv.descs := by
      rw [hparse, hserv]
    rw [hflat, binarySize_flatten, List.map_map] at h1
    exact h1
  have hboundall : ∀ x ∈ (bodiesOf bt.sections).map
      (fun b => binarySize (descsAt (parseServices b []) k)), x ≤ 1004 := by
    intro x hx
    rw [List.mem_map] at hx
    obtain ⟨b, hb, hbx⟩ := hx
    unfold bodiesOf at hb
    rw [List.mem_map] at hb
    obtain ⟨sec, hsec, hsb⟩ := hb
    have hplen := (hprops sec hsec).2.2.2.2.2.2
    have hble : b.length ≤ 1009 := by
      rw [← hsb, List.length_drop]
      have hM : MAX_PSI_LONG_SECTION_PAYLOAD_SIZE = 1012 := rfl
      omega
    have := descsAt_parse_le k b.length b [] (Nat.le_refl _)
    rw [descsAt_nil] at this
    rw [← hbx]
    have hz : binarySize ([] : List (List Nat)) = 0 := rfl
    omega
  have hcount := sum_le_mul_countP 1004 _ hboundall
  rw [hsum] at hcount
  have hcp : ((bodiesOf bt.sections).map
      (fun b => binarySize (descsAt (parseServices b []) k))).countP
      (fun x => decide (x ≠ 0)) =
      bt.sections.countP (fun sec => decide (sectionPart k sec ≠ 0)) := by
    unfold bodiesOf
    rw [List.map_map, List.countP_map]
    rfl
  rw [hcp] at hcount
  have h2 : 2 ≤ bt.sections.countP (fun sec => decide (sectionPart k sec ≠ 0)) := by
    omega
  refine ⟨bt, hser, hdec, h2, ?_⟩
  calc 2 ≤ bt.sections.countP (fun sec => decide (sectionPart k sec ≠ 0)) := h2
    _ ≤ bt.sections.length := List.countP_le_length _



theorem clearedWithTid_table_id (s : SDT) (x : Nat) :
    (s.clearedWithTid x)._table_id = x := rfl

/-- Claim C1 as stated is false: a sequence whose first section decodes one
service and whose second section has an empty payload is marked invalid, yet
the entry map is not empty — the service from the first section remains. -/
theorem C1_counterexample :
    (SDT.deserialize exZero ⟨[exSec1, exSec2]⟩)._is_valid = false ∧
    (SDT.deserialize exZero ⟨[exSec1, exSec2]⟩).services ≠ [] := by
  decide

/-- Claim C1, amended: on a rule failure `deserialize` leaves the table
marked invalid; the clearing of the entry map and of both identifiers
happens at the start of decode, not at the failure, so a run that fails
before processing any section payload (a first section with a foreign tag,
or a first section whose payload is shorter than 3 bytes) leaves the entry
map empty and the scope identifier zero — while a failure on a later
section keeps everything already accumulated (see the counterexample). -/
theorem C1_invalid_and_cleared_only_upfront (s : SDT) (bt : BinaryTable)
    (hne : bt.sections ≠ []) :
    (bt.tableId ≠ TID_SDT_ACT → bt.tableId ≠ TID_SDT_OTH →
      s.deserialize bt = s.clearedWithTid bt.tableId) ∧
    (∀ s0 ss, bt.sections = s0 :: ss →
      (s0.tableId = TID_SDT_ACT ∨ s0.tableId = TID_SDT_OTH) →
      s0.payload.length < 3 →
      (s.deserialize bt)._is_valid = false ∧
      (s.deserialize bt).services = [] ∧
      (s.deserialize bt).onetw_id = 0 ∧
      (s.deserialize bt).ts_id = s0.tableIdExtension) := by
  have hval : bt.isValid = true := by
    unfold BinaryTable.isValid
    exact decide_eq_true hne
  constructor
  · intro h1 h2
    rw [deserialize_unfold, if_neg (by rw [hval]; simp), if_pos ⟨h1, h2⟩]
  · intro s0 ss hsec htag hlen
    have htbid : bt.tableId = s0.tableId := by
      unfold BinaryTable.tableId
      rw [hsec]
      simp
    have hdes : s.deserialize bt =
        (s.clearedWithTid bt.tableId).processSections bt.sections := by
      rw [deserialize_unfold, if_neg (by rw [hval]; simp),
        if_neg (by rw [htbid]; rcases htag with h | h <;> simp [h])]
    rw [hdes, hsec, SDT.processSections,
      if_neg (by rw [clearedWithTid_table_id, htbid]; simp), if_pos hlen]
    exact ⟨rfl, rfl, rfl, rfl⟩

/-- Witness for the amended claim C1 at a concrete input: a single section
with the SDT-Actual tag and an empty payload. -/
theorem C1_witness :
    ((⟨[exSec2]⟩ : BinaryTable).sections ≠ []) ∧
    ((((⟨[exSec2]⟩ : BinaryTable)).tableId ≠ TID_SDT_ACT →
      ((⟨[exSec2]⟩ : BinaryTable)).tableId ≠ TID_SDT_OTH →
      SDT.deserialize exZero ⟨[exSec2]⟩ =
        exZero.clearedWithTid ((⟨[exSec2]⟩ : BinaryTable)).tableId) ∧
    (∀ s0 ss, ((⟨[exSec2]⟩ : BinaryTable)).sections = s0 :: ss →
      (s0.tableId = TID_SDT_ACT ∨ s0.tableId = TID_SDT_OTH) →
      s0.payload.length < 3 →
      (SDT.deserialize exZero ⟨[exSec2]⟩)._is_valid = false ∧
      (SDT.deserialize exZero ⟨[exSec2]⟩).services = [] ∧
      (SDT.deserialize exZero ⟨[exSec2]⟩).onetw_id = 0 ∧
      (SDT.deserialize exZero ⟨[exSec2]⟩).ts_id = s0.tableIdExtension)) :=
  ⟨by decide, C1_invalid_and_cleared_only_upfront exZero ⟨[exSec2]⟩ (by decide)⟩

/-- Claim C2: for every valid, well-formed table whose entries' combined
encoded size fits in one section, decoding the encoded table reproduces the
tag, version, current flag, extension id, scope id and the identical entry
map (same keys, flags and descriptor bytes in the same order). -/
theorem C2_roundtrip_single_section (t : SDT) (out : BinaryTable) (s : SDT)
    (hv : t._is_valid = true) (hwf : t.wf)
    (hfit : 3 + entriesSize t.services ≤ MAX_PSI_LONG_SECTION_PAYLOAD_SIZE) :
    ∃ bt, t.serialize out = some bt ∧
      (s.deserialize bt)._is_valid = true ∧
      (s.deserialize bt)._table_id = t._table_id ∧
      (s.deserialize bt).version = t.version ∧
      (s.deserialize bt).is_current = t.is_current ∧
      (s.deserialize bt).ts_id = t.ts_id ∧
      (s.deserialize bt).onetw_id = t.onetw_id ∧
      (s.deserialize bt).services = t.services :=
  roundtrip_main t out s hv hwf

/-- Witness for claim C2 at a concrete one-service table. -/
theorem C2_witness :
    ∃ bt, exT1.serialize ⟨[]⟩ = some bt ∧
      (SDT.deserialize exZero bt)._is_valid = true ∧
      (SDT.deserialize exZero bt)._table_id = exT1._table_id ∧
      (SDT.deserialize exZero bt).version = exT1.version ∧
      (SDT.deserialize exZero bt).is_current = exT1.is_current ∧
      (SDT.deserialize exZero bt).ts_id = exT1.ts_id ∧
      (SDT.deserialize exZero bt).onetw_id = exT1.onetw_id ∧
      (SDT.deserialize exZero bt).services = exT1.services :=
  C2_roundtrip_single_section exT1 ⟨[]⟩ exZero (by decide) (by decide) (by decide)

/-- Claim C5: for every combination of the two presence flags, every 3-bit
running status, every CA bit, any service id and any descriptor-byte block
below the 12-bit limit, decoding the bytes encoded for one entry yields the
identical four flag values (whatever in-memory descriptor list the entry
had), and the masked 12-bit length field reads back exactly the number of
descriptor bytes serialized in this portion. -/
theorem C5_bit_packing (e1 e2 ca : Bool) (rs service_id : Nat)
    (ds : List (List Nat)) (bs : List Nat)
    (hrs : rs < 8) (hid : service_id < 65536) (hbs : bs.length < 4096) :
    parseServices (encChunk service_id ⟨e1, e2, rs, ca, ds⟩ bs) [] =
      [(service_id, ⟨e1, e2, rs, ca, descAdd bs⟩)] ∧
    ((encChunk service_id ⟨e1, e2, rs, ca, ds⟩ bs).getD 3 0 * 256 +
      (encChunk service_id ⟨e1, e2, rs, ca, ds⟩ bs).getD 4 0) &&& 0x0FFF =
      bs.length := by
  constructor
  · rw [parsesTo_run _ _ (parsesTo_chunk service_id ⟨e1, e2, rs, ca, ds⟩ bs
      hid hrs hbs)]
    rfl
  · show (lenHiByte ⟨e1, e2, rs, ca, ds⟩ bs.length * 256 + bs.length % 256)
      &&& 0x0FFF = bs.length
    rw [and4095_eq_mod, lenHiByte_eq ⟨e1, e2, rs, ca, ds⟩ bs.length hrs hbs]
    have hcc : (if (⟨e1, e2, rs, ca, ds⟩ : Service).CA_controlled
        then 16 else 0) = 16 ∨
        (if (⟨e1, e2, rs, ca, ds⟩ : Service).CA_controlled
        then 16 else 0) = 0 := by
      cases ca <;> simp
    rcases hcc with h | h <;> rw [h] <;> omega

/-- Witness for claim C5 at one concrete flag combination. -/
theorem C5_witness :
    (parseServices (encChunk 0x1234 ⟨true, false, 5, true, []⟩ [0x48, 1, 7]) [] =
      [(0x1234, ⟨true, false, 5, true, descAdd [0x48, 1, 7]⟩)] ∧
    ((encChunk 0x1234 ⟨true, false, 5, true, []⟩ [0x48, 1, 7]).getD 3 0 * 256 +
      (encChunk 0x1234 ⟨true, false, 5, true, []⟩ [0x48, 1, 7]).getD 4 0)
      &&& 0x0FFF = ([0x48, 1, 7] : List Nat).length) :=
  C5_bit_packing true false true 5 0x1234 [] [0x48, 1, 7]
    (by decide) (by decide) (by decide)

/-- Claim C6: a payload whose entry header declares a 12-bit descriptor-loop
length larger than the bytes remaining after the header decodes without
fault: the length is clamped to the remaining byte count, exactly the
available bytes are consumed as that entry's descriptors, and the loop
continues (here: terminates, as nothing remains). -/
theorem C6_clamps_to_available (data : List Nat) (m : ServiceMap)
    (h5 : 5 ≤ data.length)
    (hover : data.length - 5 <
      ((data.getD 3 0 * 256 + data.getD 4 0) &&& 0x0FFF)) :
    stepInfo data = data.length - 5 ∧
    parseServices data m = mapInsert m (GetUInt16 data) (stepServ data m) ∧
    (stepServ data m).descs =
      ((mapGet m (GetUInt16 data)).getD Service.init).descs ++
        descAdd (data.drop 5) := by
  have hinfo : stepInfo data = data.length - 5 := by
    unfold stepInfo
    omega
  refine ⟨hinfo, ?_, ?_⟩
  · rw [parseServices_step data m (by omega)]
    rw [hinfo]
    rw [List.drop_eq_nil_of_le (by omega), parseServices_nil]
  · unfold stepServ
    rw [hinfo, List.take_of_length_le (by rw [List.length_drop])]

/-- Witness for claim C6: a 5-byte payload declaring 0x0FFF descriptor
bytes where none remain. -/
theorem C6_witness :
    5 ≤ ([0, 7, 0xFC, 0x0F, 0xFF] : List Nat).length ∧
    ([0, 7, 0xFC, 0x0F, 0xFF] : List Nat).length - 5 <
      ((([0, 7, 0xFC, 0x0F, 0xFF] : List Nat).getD 3 0 * 256 +
        ([0, 7, 0xFC, 0x0F, 0xFF] : List Nat).getD 4 0) &&& 0x0FFF) ∧
    (stepInfo [0, 7, 0xFC, 0x0F, 0xFF] =
      ([0, 7, 0xFC, 0x0F, 0xFF] : List Nat).length - 5 ∧
    parseServices [0, 7, 0xFC, 0x0F, 0xFF] [] =
      mapInsert [] (GetUInt16 [0, 7, 0xFC, 0x0F, 0xFF])
        (stepServ [0, 7, 0xFC, 0x0F, 0xFF] []) ∧
    (stepServ [0, 7, 0xFC, 0x0F, 0xFF] []).descs =
      ((mapGet [] (GetUInt16 [0, 7, 0xFC, 0x0F, 0xFF])).getD
        Service.init).descs ++ descAdd (([0, 7, 0xFC, 0x0F, 0xFF] :
        List Nat).drop 5)) :=
  ⟨by decide, by decide,
    C6_clamps_to_available [0, 7, 0xFC, 0x0F, 0xFF] [] (by decide) (by decide)⟩

/-- Claim C7: encode terminates on every valid well-formed in-memory table —
the per-entry continuation loop always makes progress, so `serialize` (whose
fuel models a non-terminating C++ loop as `none`) returns a result. -/
theorem C7_serialize_total (t : SDT) (out : BinaryTable)
    (hv : t._is_valid = true) (hwf : t.wf) : (t.serialize out).isSome := by
  obtain ⟨bt, hser, _⟩ := serialize_ok t out hv hwf
  rw [hser]
  rfl

set_option maxRecDepth 10000 in
/-- Witness for claim C7 at a table whose descriptor list spans several
sections. -/
theorem C7_witness : (exTBig.serialize ⟨[]⟩).isSome :=
  C7_serialize_total exTBig ⟨[]⟩ (by decide) (by decide)

/-- Claim C9: a sequence of sections that all carry an SDT tag matching the
first section's and at least the 3 constant payload bytes decodes
successfully even when version, current flag or extension id conflict
across sections, and the decoded table's version, current flag and
extension id are those of the last section processed. -/
theorem C9_last_section_wins (s : SDT) (bt : BinaryTable)
    (hne : bt.sections ≠ []) (s0 : Section) (ss : List Section)
    (hsec : bt.sections = s0 :: ss)
    (htag0 : s0.tableId = TID_SDT_ACT ∨ s0.tableId = TID_SDT_OTH)
    (hall : ∀ sec ∈ bt.sections, sec.tableId = s0.tableId ∧
      3 ≤ sec.payload.length) :
    (s.deserialize bt)._is_valid = true ∧
    (s.deserialize bt).version = (bt.sections.getLast hne).version ∧
    (s.deserialize bt).is_current = (bt.sections.getLast hne).isCurrent ∧
    (s.deserialize bt).ts_id = (bt.sections.getLast hne).tableIdExtension := by
  have hval : bt.isValid = true := by
    unfold BinaryTable.isValid
    exact decide_eq_true hne
  have htbid : bt.tableId = s0.tableId := by
    unfold BinaryTable.tableId
    rw [hsec]
    simp
  have hdes : s.deserialize bt =
      (s.clearedWithTid bt.tableId).processSections bt.sections := by
    rw [deserialize_unfold, if_neg (by rw [hval]; simp),
      if_neg (by rw [htbid]; rcases htag0 with h | h <;> simp [h])]
  have hcomp := processSections_complete (s.clearedWithTid bt.tableId)
    bt.sections hne (by
      intro sec hsc
      refine ⟨?_, (hall sec hsc).2⟩
      show sec.tableId = bt.tableId
      rw [htbid]
      exact (hall sec hsc).1)
  rw [hdes, hcomp]
  exact ⟨rfl, rfl, rfl, rfl⟩

/-- Witness for claim C9: two sections with conflicting version, current
flag and extension id; the second (last) section's values win. -/
theorem C9_witness :
    ((SDT.deserialize exZero ⟨[exSec1, exSecV9]⟩)._is_valid = true ∧
    (SDT.deserialize exZero ⟨[exSec1, exSecV9]⟩).version =
      ((⟨[exSec1, exSecV9]⟩ : BinaryTable).sections.getLast (by decide)).version ∧
    (SDT.deserialize exZero ⟨[exSec1, exSecV9]⟩).is_current =
      ((⟨[exSec1, exSecV9]⟩ : BinaryTable).sections.getLast (by decide)).isCurrent ∧
    (SDT.deserialize exZero ⟨[exSec1, exSecV9]⟩).ts_id =
      ((⟨[exSec1, exSecV9]⟩ : BinaryTable).sections.getLast
        (by decide)).tableIdExtension) ∧
    (SDT.deserialize exZero ⟨[exSec1, exSecV9]⟩).version = 9 ∧
    (SDT.deserialize exZero ⟨[exSec1, exSecV9]⟩).ts_id = 77 :=
  ⟨C9_last_section_wins exZero ⟨[exSec1, exSecV9]⟩ (by decide) exSec1 [exSecV9]
    (by decide) (by decide)
    (by intro sec hsc; fin_cases hsc <;> exact ⟨by decide, by decide⟩),
   by decide, by decide⟩

/-- Claim C10: serializing an invalid table first clears the output table
and returns immediately with zero sections; the output is rebuilt from
scratch — it does not depend on the previous content of the output
argument — regardless of validity. -/
theorem C10_invalid_serializes_empty (t : SDT) (out out' : BinaryTable) :
    (t._is_valid = false → t.serialize out = some { sections := [] } ∧
      (t.serialize out).map BinaryTable.sectionCount = some 0) ∧
    t.serialize out = t.serialize out' := by
  constructor
  · intro h
    rw [SDT.serialize, if_pos h]
    exact ⟨rfl, rfl⟩
  · rfl

/-- Witness for claim C10 at a concrete invalid table and two different
previous output contents. -/
theorem C10_witness :
    ((exInvalid._is_valid = false →
      exInvalid.serialize ⟨[exSec1]⟩ = some { sections := [] } ∧
      (exInvalid.serialize ⟨[exSec1]⟩).map BinaryTable.sectionCount = some 0) ∧
    exInvalid.serialize ⟨[exSec1]⟩ = exInvalid.serialize ⟨[]⟩) ∧
    exInvalid.serialize ⟨[exSec1]⟩ = some { sections := [] } :=
  ⟨C10_invalid_serializes_empty exInvalid ⟨[exSec1]⟩ ⟨[]⟩,
   (C10_invalid_serializes_empty exInvalid ⟨[exSec1]⟩ ⟨[]⟩).1 (by decide) |>.1⟩



theorem rangeTable_services (n : Nat) :
    (rangeTable n).services = (List.range n).map (fun i => (i, Service.init)) :=
  rfl

theorem rangeTable_empty_descs (n : Nat) :
    ∀ p ∈ (rangeTable n).services, p.2.descs = [] := by
  intro p hp
  rw [rangeTable_services, List.mem_map] at hp
  obtain ⟨i, _, rfl⟩ := hp
  rfl

theorem rangeTable_length (n : Nat) : (rangeTable n).services.length = n := by
  rw [rangeTable_services, List.length_map, List.length_range]

theorem rangeTable_valid (n : Nat) : (rangeTable n)._is_valid = true := rfl

theorem rangeTable_wf (n : Nat) (h : n ≤ 65536) : (rangeTable n).wf := by
  refine ⟨Or.inl rfl, (by decide : (5 : Nat) < 32), (by decide : (7 : Nat) < 65536),
    (by decide : (9 : Nat) < 65536), ?_, ?_⟩
  · rw [rangeTable_services, List.pairwise_map]
    exact List.pairwise_lt_range n
  · intro p hp
    rw [rangeTable_services, List.mem_map] at hp
    obtain ⟨i, hi, rfl⟩ := hp
    rw [List.mem_range] at hi
    exact ⟨by omega, (by decide : (0 : Nat) < 8),
      fun d hd => absurd hd (List.not_mem_nil d)⟩

set_option maxRecDepth 100000 in
set_option maxHeartbeats 2000000 in
/-- Claim C3 as stated is false: an entry whose whole descriptor list
exceeds what remains of the current section is not split — when it fits a
fresh section the encoder flushes first and moves the entry whole. Here the
second service's 200 descriptor bytes exceed the 104 bytes remaining after
the first service fills 908 payload bytes, yet exactly one emitted section
carries descriptor bytes for that entry. -/
theorem C3_counterexample :
    (exT3.serialize ⟨[]⟩).map
        (fun bt => bt.sections.map (fun sec => sec.payload.length)) =
      some [908, 208] ∧
    binarySize exSvc200.descs = 200 ∧
    MAX_PSI_LONG_SECTION_PAYLOAD_SIZE - 908 < 5 + binarySize exSvc200.descs ∧
    (exT3.serialize ⟨[]⟩).map
        (fun bt => bt.sections.countP (fun sec => decide (sectionPart 2 sec ≠ 0))) =
      some 1 := by
  decide

/-- Claim C3, amended: an entry is split across two or more sections exactly
when its descriptor list cannot fit even a fresh section (more than
`MAX_PSI_LONG_SECTION_PAYLOAD_SIZE - 8 = 1004` descriptor bytes); then at
least two emitted sections carry descriptor bytes of that entry, each
repeating the 5-byte entry header, and decode reassembles for that id a
descriptor list identical to the un-split original by accumulating across
sections in order. -/
theorem C3_split_only_oversized (t : SDT) (out : BinaryTable) (s : SDT)
    (hv : t._is_valid = true) (hwf : t.wf) (k : Nat) (serv : Service)
    (hmem : (k, serv) ∈ t.services)
    (hbig : MAX_PSI_LONG_SECTION_PAYLOAD_SIZE - 8 < binarySize serv.descs) :
    ∃ bt, t.serialize out = some bt ∧
      descsAt (s.deserialize bt).services k = serv.descs ∧
      2 ≤ bt.sections.countP (fun sec => decide (sectionPart k sec ≠ 0)) ∧
      2 ≤ bt.sections.length := by
  refine split_entry_sections t out s hv hwf k serv hmem ?_
  have hM : MAX_PSI_LONG_SECTION_PAYLOAD_SIZE = 1012 := rfl
  omega

set_option maxRecDepth 10000 in
/-- Witness for the amended claim C3: a table with one 1285-byte descriptor
list, reassembled identically from at least two sections. -/
theorem C3_witness :
    (exTBig._is_valid = true ∧ exTBig.wf ∧
      (100, exSvcBig) ∈ exTBig.services ∧
      MAX_PSI_LONG_SECTION_PAYLOAD_SIZE - 8 < binarySize exSvcBig.descs) ∧
    ∃ bt, exTBig.serialize ⟨[]⟩ = some bt ∧
      descsAt (SDT.deserialize exZero bt).services 100 = exSvcBig.descs ∧
      2 ≤ bt.sections.countP (fun sec => decide (sectionPart 100 sec ≠ 0)) ∧
      2 ≤ bt.sections.length :=
  ⟨⟨by decide, by decide, List.mem_singleton_self _, by decide⟩,
    C3_split_only_oversized exTBig ⟨[]⟩ exZero (by decide) (by decide) 100
      exSvcBig (List.mem_singleton_self _) (by decide)⟩

/-- Claim C4 as stated is false: with all-empty descriptor lists each entry
costs 5 bytes but at most 201 entries fit one section (the 1009 usable bytes
of a 1012-byte payload hold ⌊1009/5⌋ = 201 entries), so 403 entries need 3
sections while the claimed bound `⌈(403·5+3)/1012⌉` is 2. -/
theorem C4_counterexample :
    ((rangeTable 403).serialize ⟨[]⟩).map (fun bt => bt.sections.length) =
      some 3 ∧
    (403 * 5 + 3 + (MAX_PSI_LONG_SECTION_PAYLOAD_SIZE - 1)) /
      MAX_PSI_LONG_SECTION_PAYLOAD_SIZE < 3 := by
  obtain ⟨bt, hser, hlen⟩ := serialize_empty_count (rangeTable 403) ⟨[]⟩
    (rangeTable_valid 403) (rangeTable_empty_descs 403)
  constructor
  · rw [hser]
    show some bt.sections.length = some 3
    rw [hlen, rangeTable_length]
    decide
  · decide

/-- Claim C4, amended: for a table of `N` entries with empty descriptor
lists, encode emits exactly `max 1 ⌈N/201⌉` sections (at least one even for
an empty map): each full section holds 201 five-byte entries, not
`⌊maxPayload/5⌋ = 202` as the claimed bound `⌈(5N+3)/maxPayload⌉`
implies. -/
theorem C4_exact_count (t : SDT) (out : BinaryTable)
    (hv : t._is_valid = true) (hempty : ∀ p ∈ t.services, p.2.descs = []) :
    ∃ bt, t.serialize out = some bt ∧
      bt.sections.length = max 1 ((t.services.length + 200) / 201) :=
  serialize_empty_count t out hv hempty

/-- Witness for the amended claim C4 at 403 empty entries: 3 sections. -/
theorem C4_witness :
    ((rangeTable 403)._is_valid = true ∧
      (∀ p ∈ (rangeTable 403).services, p.2.descs = [])) ∧
    (∃ bt, (rangeTable 403).serialize ⟨[]⟩ = some bt ∧
      bt.sections.length =
        max 1 (((rangeTable 403).services.length + 200) / 201)) ∧
    max 1 (((rangeTable 403).services.length + 200) / 201) = 3 :=
  ⟨⟨rangeTable_valid 403, rangeTable_empty_descs 403⟩,
    C4_exact_count (rangeTable 403) ⟨[]⟩ (rangeTable_valid 403)
      (rangeTable_empty_descs 403),
    by rw [rangeTable_length]; decide⟩

/-- Claim C8 as stated is false: section numbers are the emission index
truncated to 8 bits, so they are not strictly increasing once more than 256
sections are emitted. 51657 empty entries need 257 sections and the
257th section reuses section number 0. -/
theorem C8_counterexample :
    ∃ bt, (rangeTable 51657).serialize ⟨[]⟩ = some bt ∧
      bt.sections.length = 257 ∧
      ∃ s0 s256, bt.sections[0]? = some s0 ∧ bt.sections[256]? = some s256 ∧
        s0.sectionNumber = 0 ∧ s256.sectionNumber = 0 := by
  obtain ⟨bt, hser, hlen⟩ := serialize_empty_count (rangeTable 51657) ⟨[]⟩
    (rangeTable_valid 51657) (rangeTable_empty_descs 51657)
  obtain ⟨bt2, hser2, hne, hprops, hnums, hparse⟩ :=
    serialize_ok (rangeTable 51657) ⟨[]⟩ (rangeTable_valid 51657)
      (rangeTable_wf 51657 (by omega))
  rw [hser] at hser2
  have hbteq : bt2 = bt := (Option.some.inj hser2).symm
  rw [hbteq] at hnums
  have hlen257 : bt.sections.length = 257 := by
    rw [hlen, rangeTable_length]
    decide
  have h0 : bt.sections[0]? = some (bt.sections.get ⟨0, by omega⟩) :=
    List.getElem?_eq_getElem (by omega)
  have h256 : bt.sections[256]? = some (bt.sections.get ⟨256, by omega⟩) :=
    List.getElem?_eq_getElem (by omega)
  refine ⟨bt, hser, hlen257, _, _, h0, h256, ?_, ?_⟩
  · exact (hnums 0 _ h0).1
  · have := (hnums 256 _ h256).1
    omega

/-- Claim C8, amended: every emitted section's payload respects the size
cap and its last-section-number equals its own section number, but the
section number is the emission index truncated mod 256 — strictly
increasing only for the first 256 sections. -/
theorem C8_numbers_mod256 (t : SDT) (out : BinaryTable)
    (hv : t._is_valid = true) (hwf : t.wf) :
    ∃ bt, t.serialize out = some bt ∧
      (∀ s ∈ bt.sections,
        s.payload.length ≤ MAX_PSI_LONG_SECTION_PAYLOAD_SIZE) ∧
      (∀ i s, bt.sections[i]? = some s →
        s.sectionNumber = i % 256 ∧ s.lastSectionNumber = s.sectionNumber) := by
  obtain ⟨bt, hser, hne, hprops, hnums, hparse⟩ := serialize_ok t out hv hwf
  refine ⟨bt, hser, fun s hs => (hprops s hs).2.2.2.2.2.2, fun i s hi => ?_⟩
  obtain ⟨h1, h2⟩ := hnums i s hi
  exact ⟨h1, by rw [h1, h2]⟩

/-- Witness for the amended claim C8 at a concrete one-service table. -/
theorem C8_witness :
    (exT1._is_valid = true ∧ exT1.wf) ∧
    ∃ bt, exT1.serialize ⟨[]⟩ = some bt ∧
      (∀ s ∈ bt.sections,
        s.payload.length ≤ MAX_PSI_LONG_SECTION_PAYLOAD_SIZE) ∧
      (∀ i s, bt.sections[i]? = some s →
        s.sectionNumber = i % 256 ∧ s.lastSectionNumber = s.sectionNumber) :=
  ⟨⟨by decide, by decide⟩, C8_numbers_mod256 exT1 ⟨[]⟩ (by decide) (by decide)⟩

end ts
